import Mathlib

/-!
The program file_search: recursive file search by a simple wildcard pattern.

A shallow embedding of `src/file_search/file_search/main.cpp`:

* `getCmpFileNamePart` (lines 100-124) classifies the file name pattern;
* `getFiles` (lines 126-191) walks a directory tree and collects the paths
  of the regular files selected by the pattern and the mode.

A `std::string` is a list of characters.  `size_t` is an unsigned 64 bit
integer, modelled by a natural number reduced modulo `2 ^ 64`.  The Win32
directory enumeration (`FindFirstFile`, `FindNextFile`) is modelled by a
finite tree of listings.
-/

namespace FileSearch

/-! ## Strings -/

/-- A `std::string`: the sequence of its characters. -/
abbrev CppString := List Char

/-- Number of values of `size_t` (64 bit). -/
def SIZE_MODULUS : Nat := 2 ^ 64

/-- The constant `std::string::npos`, the largest value of `size_t`. -/
def npos : Nat := SIZE_MODULUS - 1

/-- Addition of two `size_t` values. -/
def sizeAdd (a b : Nat) : Nat := (a + b) % SIZE_MODULUS

/-- Subtraction of two `size_t` values (both below `SIZE_MODULUS`). -/
def sizeSub (a b : Nat) : Nat := (a + SIZE_MODULUS - b) % SIZE_MODULUS

/-- What can go wrong while the program runs. -/
inductive Fault where
  /-- A character is read at `index`, outside of the positions `0..size` of the
  string (undefined behaviour in C++). -/
  | outOfBounds (index : Int)
  /-- The exception `std::out_of_range`, thrown by `substr` when `pos > size`. -/
  | out_of_range
  deriving DecidableEq

instance instDecidableEqExcept {ε α : Type} [DecidableEq ε] [DecidableEq α] :
    DecidableEq (Except ε α)
  | .ok a, .ok b => if h : a = b then isTrue (by rw [h]) else isFalse (fun h1 => h (Except.ok.inj h1))
  | .error a, .error b =>
    if h : a = b then isTrue (by rw [h]) else isFalse (fun h1 => h (Except.error.inj h1))
  | .ok _, .error _ => isFalse (fun h => Except.noConfusion h)
  | .error _, .ok _ => isFalse (fun h => Except.noConfusion h)

/-- The read `s[i]` and the read `*(s.begin() + i)`: the character at position
`i`, the terminator `'\0'` at position `size`, a fault at any other position. -/
def charAt (s : CppString) (i : Int) : Except Fault Char :=
  if 0 ≤ i ∧ i < s.length then .ok (s.getD i.toNat '\x00')
  else if i = s.length then .ok '\x00'
  else .error (.outOfBounds i)

/-- The call `s.find(c)`: the position of the first `c` in `s`, or `npos`. -/
def find (s : CppString) (c : Char) : Nat :=
  if s.indexOf c < s.length then s.indexOf c else npos

/-- The call `s.substr(pos, count)`: at most `count` characters from position
`pos` on; throws when `pos > size`. -/
def substr (s : CppString) (pos count : Nat) : Except Fault CppString :=
  if pos > s.length then .error .out_of_range
  else .ok ((s.drop pos).take count)

/-! ## The pattern classifier -/

/-- The enumeration `CMP_FILENAME_PART` (lines 27-33). -/
inductive CMP_FILENAME_PART where
  | NOTHING
  | FILE_NAME
  | EXTENSION
  | EVERYTHING
  deriving DecidableEq

open CMP_FILENAME_PART

/-- The function `getCmpFileNamePart` (lines 100-124).  The operator `&&`
evaluates its right operand only when the left one holds. -/
def getCmpFileNamePart (fileNamePattern : CppString) : Except Fault CMP_FILENAME_PART :=
  match charAt fileNamePattern 0 with
  | .error e => .error e
  | .ok c0 =>
    match (if c0 = '*' then
            (match charAt fileNamePattern 1 with
             | .error e => .error e
             | .ok c1 => .ok (decide (c1 = '.')))
           else (.ok false : Except Fault Bool)) with
    | .error e => .error e
    | .ok true =>
      match charAt fileNamePattern 2 with
      | .error e => .error e
      | .ok c2 => if c2 = '*' then .ok NOTHING else .ok EXTENSION
    | .ok false =>
      match charAt fileNamePattern ((fileNamePattern.length : Int) - 2) with
      | .error e => .error e
      | .ok d2 =>
        match (if d2 = '.' then
                (match charAt fileNamePattern ((fileNamePattern.length : Int) - 1) with
                 | .error e => .error e
                 | .ok d1 => .ok (decide (d1 = '*')))
               else (.ok false : Except Fault Bool)) with
        | .error e => .error e
        | .ok true => .ok FILE_NAME
        | .ok false => .ok EVERYTHING

/-! ## The directory tree -/

mutual
/-- What `FindFirstFile(dirPath + "\\*")` finds for a directory. -/
inductive Dir where
  /-- The call fails and `GetLastError()` is `code`. -/
  | failed (code : Nat)
  /-- The entries that `FindFirstFile` and `FindNextFile` yield, in this order.
  With no entry at all `FindFirstFile` fails with `ERROR_FILE_NOT_FOUND`. -/
  | listed (entries : List Entry)
/-- One `WIN32_FIND_DATA` record of a listing. -/
inductive Entry where
  /-- An entry without `FILE_ATTRIBUTE_DIRECTORY`, with its `cFileName`. -/
  | file (cFileName : CppString)
  /-- An entry with `FILE_ATTRIBUTE_DIRECTORY`, with its `cFileName`, and what
  listing that directory finds. -/
  | dir (cFileName : CppString) (sub : Dir)
end

/-- The Win32 error code `ERROR_FILE_NOT_FOUND`. -/
def ERROR_FILE_NOT_FOUND : Nat := 2

/-- The state that `getFiles` changes: the vector `files` and the lines
written to `cout`. -/
structure State where
  files : List CppString
  cout : List CppString
  deriving DecidableEq

/-- The call `files.push_back(path)`. -/
def State.push_back (st : State) (path : CppString) : State :=
  { st with files := st.files ++ [path] }

/-- The line written to `cout` when `FindFirstFile` fails (lines 140-141). -/
def failureLine (code : Nat) : CppString :=
  "The FindFirstFile() function failed with error code: ".toList ++ (toString code).toList ++ ".".toList

/-- The string literal `"\\"`. -/
def SEP : CppString := ['\\']

/-- The `switch (cmpFileNamePart)` of lines 159-187: whether
`files.push_back(dirPath + "\\" + fileName)` is executed for `fileName`. -/
def fileNameMatches (fileName fileNamePattern : CppString) :
    CMP_FILENAME_PART → Except Fault Bool
  | NOTHING => .ok true
  | EVERYTHING => .ok (decide (fileName = fileNamePattern))
  | EXTENSION =>
    match substr fileName (sizeAdd (find fileName '.') 1)
            (sizeSub fileName.length (find fileName '.')) with
    | .error e => .error e
    | .ok lhs =>
      match substr fileNamePattern 2
              (sizeSub fileNamePattern.length (find fileNamePattern '.')) with
      | .error e => .error e
      | .ok rhs => .ok (decide (lhs = rhs))
  | FILE_NAME =>
    match substr fileName 0 (find fileName '.') with
    | .error e => .error e
    | .ok lhs =>
      match substr fileNamePattern 0 (find fileNamePattern '.') with
      | .error e => .error e
      | .ok rhs => .ok (decide (lhs = rhs))

mutual
/-- The function `getFiles` (lines 126-191), up to the first entry. -/
def getFiles (dirPath : CppString) (dir : Dir) (st : State)
    (fileNamePattern : CppString) (cmpFileNamePart : CMP_FILENAME_PART) :
    Except Fault State :=
  match dir with
  | .failed code =>
    if code ≠ ERROR_FILE_NOT_FOUND then
      .ok { st with cout := st.cout ++ [failureLine code] }
    else .ok st
  | .listed entries => getFilesLoop dirPath entries st fileNamePattern cmpFileNamePart
/-- The `do ... while (FindNextFile(hFind, &data) != 0)` loop of `getFiles`
(lines 147-189) over the entries not yet seen. -/
def getFilesLoop (dirPath : CppString) (entries : List Entry) (st : State)
    (fileNamePattern : CppString) (cmpFileNamePart : CMP_FILENAME_PART) :
    Except Fault State :=
  match entries with
  | [] => .ok st
  | .dir cFileName sub :: rest =>
    if cFileName = ".".toList ∨ cFileName = "..".toList then
      getFilesLoop dirPath rest st fileNamePattern cmpFileNamePart
    else
      match getFiles (dirPath ++ SEP ++ cFileName) sub st fileNamePattern cmpFileNamePart with
      | .error e => .error e
      | .ok st1 => getFilesLoop dirPath rest st1 fileNamePattern cmpFileNamePart
  | .file fileName :: rest =>
    match fileNameMatches fileName fileNamePattern cmpFileNamePart with
    | .error e => .error e
    | .ok true =>
      getFilesLoop dirPath rest (st.push_back (dirPath ++ SEP ++ fileName))
        fileNamePattern cmpFileNamePart
    | .ok false => getFilesLoop dirPath rest st fileNamePattern cmpFileNamePart
end

/-- The classification in the words of the specification: match-all when the
pattern starts with `*.` and its third character is `*`, else
match-by-extension when it starts with `*.`, else match-by-base-name when its
last two characters are `.*`, else match-full-name. -/
def classifyByPriority (pattern : CppString) : CMP_FILENAME_PART :=
  if "*.".toList <+: pattern then
    (if pattern.get? 2 = some '*' then NOTHING else EXTENSION)
  else if ".*".toList <:+ pattern then FILE_NAME
  else EVERYTHING

/-- The part of a name before its first `.`, the whole name when it has
none. -/
def beforeFirstDot (name : CppString) : CppString :=
  name.takeWhile (fun c => c != '.')

/-- The part of a name after its first `.` (nothing when it has none). -/
def afterFirstDot (name : CppString) : CppString :=
  (name.dropWhile (fun c => c != '.')).drop 1

/-- The walker collects the regular file `fileName` if and only if `cond`
holds: wherever a listing holds the file, between the entries `before` and the
entries `after`, `getFiles` walks `before`, then appends the joined path of the
file when `cond` holds and appends nothing when it does not, then walks
`after`. -/
def CollectsIff (fileNamePattern : CppString) (cmpFileNamePart : CMP_FILENAME_PART)
    (fileName : CppString) (cond : Prop) [Decidable cond] : Prop :=
  ∀ (dirPath : CppString) (before after : List Entry) (st : State),
    getFiles dirPath (.listed (before ++ .file fileName :: after)) st
        fileNamePattern cmpFileNamePart =
      match getFiles dirPath (.listed before) st fileNamePattern cmpFileNamePart with
      | .error e => .error e
      | .ok st1 =>
        getFiles dirPath (.listed after)
          (if cond then st1.push_back (dirPath ++ SEP ++ fileName) else st1)
          fileNamePattern cmpFileNamePart

/-- The text `\\s1\\...\\sk\\f` that follows the start path in the path of the file
`f` reached through the subdirectories `s1, ..., sk`. -/
def relativePath : List CppString → CppString → CppString
  | [], f => SEP ++ f
  | s :: subdirs, f => SEP ++ s ++ relativePath subdirs f

/-- The path `root\\s1\\...\\sk\\f`. -/
def joinedPath (root : CppString) (file : List CppString × CppString) : CppString :=
  root ++ relativePath file.1 file.2

mutual
/-- The regular files of a tree, in the order of the listings: each with the
names of the subdirectories that lead to it and its own name.  The directory
entries `.` and `..` name the directory itself and its parent, they are not
subdirectories of the tree. -/
def Dir.regularFiles : Dir → List (List CppString × CppString)
  | .failed _ => []
  | .listed entries => regularFilesOfEntries entries
/-- The regular files of the trees below a list of entries. -/
def regularFilesOfEntries : List Entry → List (List CppString × CppString)
  | [] => []
  | .file f :: rest => ([], f) :: regularFilesOfEntries rest
  | .dir n sub :: rest =>
    if n = ".".toList ∨ n = "..".toList then regularFilesOfEntries rest
    else (sub.regularFiles).map (fun c => (n :: c.1, c.2)) ++ regularFilesOfEntries rest
end

mutual
/-- The lines that the failed listings of a tree call for, in the order of the
walk: one for each listing that fails with a code other than
`ERROR_FILE_NOT_FOUND`. -/
def Dir.diagnostics : Dir → List CppString
  | .failed code => if code ≠ ERROR_FILE_NOT_FOUND then [failureLine code] else []
  | .listed entries => diagnosticsOfEntries entries
/-- The lines that the failed listings below a list of entries call for. -/
def diagnosticsOfEntries : List Entry → List CppString
  | [] => []
  | .file _ :: rest => diagnosticsOfEntries rest
  | .dir n sub :: rest =>
    if n = ".".toList ∨ n = "..".toList then diagnosticsOfEntries rest
    else sub.diagnostics ++ diagnosticsOfEntries rest
end

/-- The paths collected from a list of regular files, in order; the fault of
the first comparison that fails, if one does. -/
def collectPaths (root pat : CppString) (m : CMP_FILENAME_PART) :
    List (List CppString × CppString) → Except Fault (List CppString)
  | [] => .ok []
  | c :: rest =>
    match fileNameMatches c.2 pat m with
    | .error e => .error e
    | .ok b =>
      match collectPaths root pat m rest with
      | .error e => .error e
      | .ok paths => .ok (if b then joinedPath root c :: paths else paths)

/-- The `cFileName` of an entry. -/
def Entry.name : Entry → CppString
  | .file f => f
  | .dir n _ => n

mutual
/-- In every directory of the tree the names of the entries are pairwise
distinct and no name contains the separator `\\`. -/
def Dir.wellNamed : Dir → Bool
  | .failed _ => true
  | .listed entries =>
    decide ((entries.map Entry.name).Nodup) && wellNamedEntries entries
/-- No name of the entries contains the separator, and the trees below them
are well named. -/
def wellNamedEntries : List Entry → Bool
  | [] => true
  | .file f :: rest => decide ('\\' ∉ f) && wellNamedEntries rest
  | .dir n sub :: rest => decide ('\\' ∉ n) && sub.wellNamed && wellNamedEntries rest
end

/-- The lines 80-83 of `main`: the classifier, then `getFiles` on an empty
vector (what `main` wrote to `cout` before is left out). -/
def searchFiles (dirPath fileNamePattern : CppString) (dir : Dir) : Except Fault State :=
  match getCmpFileNamePart fileNamePattern with
  | .error e => .error e
  | .ok cmpFileNamePart => getFiles dirPath dir ⟨[], []⟩ fileNamePattern cmpFileNamePart

/-- The tree `dir` put in place of a subdirectory: `path` gives, from the
start directory downwards, the entries listed before the subdirectory on the
way, the name of that subdirectory, and the entries listed after it. -/
def plug : List (List Entry × CppString × List Entry) → Dir → Dir
  | [], dir => dir
  | (before, name, after) :: path, dir =>
    .listed (before ++ .dir name (plug path dir) :: after)

/-- No name of the chain contains the separator. -/
def sepFree (c : List CppString × CppString) : Prop :=
  (∀ s ∈ c.1, '\\' ∉ s) ∧ '\\' ∉ c.2

/-- The first name of a chain: the first subdirectory, or the file itself. -/
def firstName (c : List CppString × CppString) : CppString :=
  match c.1 with
  | [] => c.2
  | n :: _ => n

/-- The contribution of one entry of the listing of the directory `dirPath` to
the result: the joined path for a regular file that matches, nothing for a
regular file that does not, the list that `getFiles` produces for a
subdirectory (nothing for the entries `.` and `..`). -/
def contribution (dirPath fileNamePattern : CppString) (cmpFileNamePart : CMP_FILENAME_PART) :
    Entry → Except Fault (List CppString)
  | .file f =>
    match fileNameMatches f fileNamePattern cmpFileNamePart with
    | .error e => .error e
    | .ok true => .ok [dirPath ++ SEP ++ f]
    | .ok false => .ok []
  | .dir s sub =>
    if s = ".".toList ∨ s = "..".toList then .ok []
    else (getFiles (dirPath ++ SEP ++ s) sub ⟨[], []⟩ fileNamePattern cmpFileNamePart).map
      State.files

/-- The contributions of the entries of a listing, one after the other in the
order of the listing. -/
def concatContributions (dirPath fileNamePattern : CppString)
    (cmpFileNamePart : CMP_FILENAME_PART) : List Entry → Except Fault (List CppString)
  | [] => .ok []
  | e :: rest =>
    match contribution dirPath fileNamePattern cmpFileNamePart e with
    | .error err => .error err
    | .ok l =>
      match concatContributions dirPath fileNamePattern cmpFileNamePart rest with
      | .error err => .error err
      | .ok ls => .ok (l ++ ls)

mutual
/-- The error codes of the directories of a tree whose listing fails with a
code other than `ERROR_FILE_NOT_FOUND`, one for each such directory, in the
order of the walk. -/
def Dir.reportedCodes : Dir → List Nat
  | .failed code => if code ≠ ERROR_FILE_NOT_FOUND then [code] else []
  | .listed entries => reportedCodesOfEntries entries
/-- The reported error codes of the directories below a list of entries. -/
def reportedCodesOfEntries : List Entry → List Nat
  | [] => []
  | .file _ :: rest => reportedCodesOfEntries rest
  | .dir n sub :: rest =>
    if n = ".".toList ∨ n = "..".toList then reportedCodesOfEntries rest
    else sub.reportedCodes ++ reportedCodesOfEntries rest
end

/-- The comparison of the mode holds for the file name: the `switch` of
`getFiles` appends the path of a file of this name. -/
def nameMatches (fileName fileNamePattern : CppString)
    (cmpFileNamePart : CMP_FILENAME_PART) : Bool :=
  match fileNameMatches fileName fileNamePattern cmpFileNamePart with
  | .ok b => b
  | .error _ => false

/-! ## Facts on the classifier -/

theorem charAt_nat_lt (s : CppString) (i : Nat) (h : i < s.length) :
    charAt s (i : Int) = .ok (s.getD i '\x00') := by
  simp [charAt, h]

theorem charAt_length (s : CppString) : charAt s (s.length : Int) = .ok '\x00' := by
  simp [charAt]

theorem exists_snoc_two (p : CppString) (h : 2 ≤ p.length) :
    ∃ q u v, p = q ++ [u, v] := by
  induction p using List.reverseRecOn with
  | nil => simp at h
  | append_singleton q v ih =>
    induction q using List.reverseRecOn with
    | nil => simp at h
    | append_singleton q2 u _ => exact ⟨q2, u, v, by simp⟩

theorem suffix_two_iff (q : CppString) (u v x y : Char) :
    [x, y] <:+ q ++ [u, v] ↔ x = u ∧ y = v := by
  rw [← List.reverse_prefix]
  simp
  tauto

theorem charAt_snoc_two_fst (q : CppString) (u v : Char) :
    charAt (q ++ [u, v]) (((q ++ [u, v]).length : Int) - 2) = .ok u := by
  have h : (((q ++ [u, v]).length : Int) - 2) = (q.length : Int) := by
    simp
  rw [h, charAt_nat_lt _ _ (by simp)]
  rw [List.getD_eq_getElem?_getD, List.getElem?_append_right (by simp)]
  simp

theorem charAt_snoc_two_snd (q : CppString) (u v : Char) :
    charAt (q ++ [u, v]) (((q ++ [u, v]).length : Int) - 1) = .ok v := by
  have h : (((q ++ [u, v]).length : Int) - 1) = ((q.length + 1 : Nat) : Int) := by
    simp; omega
  rw [h, charAt_nat_lt _ _ (by simp)]
  rw [List.getD_eq_getElem?_getD, List.getElem?_append_right (by simp)]
  simp

theorem getCmpFileNamePart_cons_cons (a b : Char) (rest : CppString) :
    getCmpFileNamePart (a :: b :: rest) =
      .ok (if a = '*' ∧ b = '.' then
            (if rest.head? = some '*' then NOTHING else EXTENSION)
           else if ".*".toList <:+ a :: b :: rest then FILE_NAME
           else EVERYTHING) := by
  have h0 : charAt (a :: b :: rest) 0 = .ok a := by
    have := charAt_nat_lt (a :: b :: rest) 0 (by simp)
    simpa using this
  have h1 : charAt (a :: b :: rest) 1 = .ok b := by
    have := charAt_nat_lt (a :: b :: rest) 1 (by simp)
    simpa using this
  have h2 : charAt (a :: b :: rest) 2 = .ok (rest.headD '\x00') := by
    cases rest with
    | nil => simp [charAt]
    | cons c rest2 =>
      have := charAt_nat_lt (a :: b :: c :: rest2) 2 (by simp)
      simpa using this
  obtain ⟨q, u, v, hq⟩ := exists_snoc_two (a :: b :: rest) (by simp)
  have h3 := charAt_snoc_two_fst q u v
  have h4 := charAt_snoc_two_snd q u v
  have h5 := suffix_two_iff q u v '.' '*'
  rw [← hq] at h3 h4 h5
  have h5b : ".*".toList <:+ a :: b :: rest ↔ '.' = u ∧ '*' = v := h5
  unfold getCmpFileNamePart
  simp only [h0, h1, h2, h3, h4, h5b]
  by_cases ha : a = '*'
  · by_cases hb : b = '.'
    · cases rest with
      | nil => simp [ha, hb]
      | cons c rest2 => by_cases hc : c = '*' <;> simp [ha, hb, hc]
    · by_cases hu : u = '.'
      · by_cases hv : v = '*'
        · simp [ha, hb, hu, hv]
        · simp [ha, hb, hu, hv, Ne.symm hv]
      · simp [ha, hb, hu, Ne.symm hu]
  · by_cases hu : u = '.'
    · by_cases hv : v = '*'
      · simp [ha, hu, hv]
      · simp [ha, hu, hv, Ne.symm hv]
    · simp [ha, hu, Ne.symm hu]

theorem getCmpFileNamePart_eq_classify (pattern : CppString) (h : 2 ≤ pattern.length) :
    getCmpFileNamePart pattern = .ok (classifyByPriority pattern) := by
  match pattern, h with
  | a :: b :: rest, _ =>
    have hp : "*.".toList <+: a :: b :: rest ↔ a = '*' ∧ b = '.' := by
      simp [List.cons_prefix_cons, eq_comm]
    have hg : (a :: b :: rest).get? 2 = rest.head? := by
      cases rest <;> simp
    rw [getCmpFileNamePart_cons_cons]
    unfold classifyByPriority
    simp only [hp, hg]

/-- C1: for every pattern of at least two characters `getCmpFileNamePart`
returns the mode given by the priority match-all, match-by-extension,
match-by-base-name, match-full-name; a pattern that starts with `*.` and ends
with `.*` is never classified as match-by-base-name. -/
theorem getCmpFileNamePart_priority (pattern : CppString) (h : 2 ≤ pattern.length) :
    getCmpFileNamePart pattern = .ok (classifyByPriority pattern) ∧
    ("*.".toList <+: pattern → ".*".toList <:+ pattern →
      getCmpFileNamePart pattern ≠ .ok FILE_NAME) := by
  refine ⟨getCmpFileNamePart_eq_classify pattern h, ?_⟩
  intro h1 _
  rw [getCmpFileNamePart_eq_classify pattern h]
  unfold classifyByPriority
  rw [if_pos h1]
  split <;> simp

theorem getCmpFileNamePart_priority_witness :
    2 ≤ "*.c.*".toList.length ∧ "*.".toList <+: "*.c.*".toList ∧
    ".*".toList <:+ "*.c.*".toList ∧
    getCmpFileNamePart "*.c.*".toList = .ok (classifyByPriority "*.c.*".toList) ∧
    getCmpFileNamePart "*.c.*".toList ≠ .ok FILE_NAME :=
  ⟨by decide, by decide, by decide,
    (getCmpFileNamePart_priority "*.c.*".toList (by decide)).1,
    (getCmpFileNamePart_priority "*.c.*".toList (by decide)).2 (by decide) (by decide)⟩

/-! ## Facts on `find` and `substr` -/

theorem take_indexOf (s : CppString) (c : Char) :
    s.take (s.indexOf c) = s.takeWhile (fun x => x != c) := by
  induction s with
  | nil => simp
  | cons a t ih =>
    by_cases h : a = c
    · simp [h, List.indexOf_cons_eq]
    · rw [List.indexOf_cons_ne _ h, List.take_succ_cons, ih, List.takeWhile_cons]
      simp [h]

theorem drop_indexOf (s : CppString) (c : Char) :
    s.drop (s.indexOf c) = s.dropWhile (fun x => x != c) := by
  induction s with
  | nil => simp
  | cons a t ih =>
    by_cases h : a = c
    · simp [h, List.indexOf_cons_eq]
    · rw [List.indexOf_cons_ne _ h, List.drop_succ_cons, ih, List.dropWhile_cons]
      simp [h]

theorem find_of_mem (s : CppString) (c : Char) (h : c ∈ s) :
    find s c = s.indexOf c ∧ s.indexOf c < s.length := by
  have h1 : s.indexOf c < s.length := List.indexOf_lt_length.mpr h
  simp [find, h1]

theorem find_of_not_mem (s : CppString) (c : Char) (h : c ∉ s) : find s c = npos := by
  have h1 : ¬ s.indexOf c < s.length := fun h2 => h (List.indexOf_lt_length.mp h2)
  simp [find, h1]

theorem substr_before (s : CppString) (h : s.length < SIZE_MODULUS) :
    substr s 0 (find s '.') = .ok (beforeFirstDot s) := by
  unfold substr beforeFirstDot
  by_cases hm : '.' ∈ s
  · rw [(find_of_mem s '.' hm).1]
    simp [take_indexOf]
  · rw [find_of_not_mem s '.' hm]
    have h1 : s.takeWhile (fun c => c != '.') = s := by
      rw [List.takeWhile_eq_self_iff]
      intro x hx
      have : x ≠ '.' := fun hxe => hm (hxe ▸ hx)
      simpa using this
    have h2 : s.length ≤ npos := by unfold npos; omega
    simp [h1, List.take_of_length_le h2]

theorem substr_after (s : CppString) (h : s.length < SIZE_MODULUS) (hm : '.' ∈ s) :
    substr s (sizeAdd (find s '.') 1) (sizeSub s.length (find s '.')) =
      .ok (afterFirstDot s) := by
  obtain ⟨h1, h2⟩ := find_of_mem s '.' hm
  have h3 : sizeAdd (s.indexOf '.') 1 = s.indexOf '.' + 1 := by
    unfold sizeAdd; exact Nat.mod_eq_of_lt (by omega)
  have h4 : sizeSub s.length (s.indexOf '.') = s.length - s.indexOf '.' := by
    unfold sizeSub
    have : s.length + SIZE_MODULUS - s.indexOf '.' =
        (s.length - s.indexOf '.') + SIZE_MODULUS := by omega
    rw [this, Nat.add_mod_right]
    exact Nat.mod_eq_of_lt (by omega)
  rw [h1, h3, h4]
  unfold substr afterFirstDot
  rw [if_neg (by omega), ← drop_indexOf]
  congr 1
  rw [List.drop_drop]
  exact List.take_of_length_le (by simp; omega)

theorem substr_whole (s : CppString) (h : s.length < npos) (hm : '.' ∉ s) :
    substr s (sizeAdd (find s '.') 1) (sizeSub s.length (find s '.')) = .ok s := by
  rw [find_of_not_mem s '.' hm]
  have hpos : SIZE_MODULUS = npos + 1 := by unfold npos SIZE_MODULUS; norm_num
  have h3 : sizeAdd npos 1 = 0 := by
    unfold sizeAdd; rw [hpos]; simp
  have h4 : sizeSub s.length npos = s.length + 1 := by
    unfold sizeSub
    have : s.length + SIZE_MODULUS - npos = s.length + 1 := by omega
    rw [this]
    exact Nat.mod_eq_of_lt (by omega)
  rw [h3, h4]
  unfold substr
  simp

theorem substr_pattern_ext (ext : CppString)
    (h : ('*' :: '.' :: ext).length < SIZE_MODULUS) :
    substr ('*' :: '.' :: ext) 2
      (sizeSub ('*' :: '.' :: ext).length (find ('*' :: '.' :: ext) '.')) = .ok ext := by
  have h1 : find ('*' :: '.' :: ext) '.' = 1 := by
    have hi : ('*' :: '.' :: ext).indexOf '.' = 1 := by
      rw [List.indexOf_cons_ne _ (by decide), List.indexOf_cons_eq _ rfl]
    simp [find, hi]
  have h4 : sizeSub ('*' :: '.' :: ext).length 1 = ext.length + 1 := by
    unfold sizeSub
    have : ('*' :: '.' :: ext).length + SIZE_MODULUS - 1 =
        (ext.length + 1) + SIZE_MODULUS := by simp
    rw [this, Nat.add_mod_right]
    simp at h
    exact Nat.mod_eq_of_lt (by omega)
  rw [h1, h4]
  unfold substr
  rw [if_neg (by simp)]
  simp [List.take_of_length_le]

/-! ## The loop of `getFiles` -/

theorem getFiles_listed (d : CppString) (es : List Entry) (st : State)
    (pat : CppString) (m : CMP_FILENAME_PART) :
    getFiles d (.listed es) st pat m = getFilesLoop d es st pat m := by
  rw [getFiles]

theorem getFilesLoop_append (d : CppString) (xs ys : List Entry) (st : State)
    (pat : CppString) (m : CMP_FILENAME_PART) :
    getFilesLoop d (xs ++ ys) st pat m =
      match getFilesLoop d xs st pat m with
      | .error e => .error e
      | .ok st1 => getFilesLoop d ys st1 pat m := by
  induction xs generalizing st with
  | nil => simp [getFilesLoop]
  | cons x xs ih =>
    cases x with
    | file f =>
      simp only [List.cons_append, getFilesLoop]
      cases fileNameMatches f pat m with
      | error e => rfl
      | ok b => cases b <;> simp [ih]
    | dir n sub =>
      simp only [List.cons_append, getFilesLoop]
      split
      · exact ih st
      · cases getFiles (d ++ SEP ++ n) sub st pat m with
        | error e => rfl
        | ok st1 => simp [ih]

theorem collectsIff_of_fileNameMatches (pat : CppString) (m : CMP_FILENAME_PART)
    (f : CppString) (cond : Prop) [Decidable cond]
    (h : fileNameMatches f pat m = .ok (decide cond)) : CollectsIff pat m f cond := by
  intro d before after st
  rw [getFiles_listed, getFiles_listed, getFilesLoop_append]
  cases getFilesLoop d before st pat m with
  | error e => rfl
  | ok st1 =>
    simp only [getFiles_listed, getFilesLoop, h]
    by_cases hc : cond <;> simp [hc]

/-! ## The four modes at a regular file -/

theorem fileNameMatches_extension (ext f : CppString)
    (hlen : ("*.".toList ++ ext).length < SIZE_MODULUS)
    (hf : f.length < SIZE_MODULUS) (hdot : '.' ∈ f) :
    fileNameMatches f ("*.".toList ++ ext) EXTENSION =
      .ok (decide (afterFirstDot f = ext)) := by
  have hp : "*.".toList ++ ext = '*' :: '.' :: ext := rfl
  rw [hp] at hlen ⊢
  simp only [fileNameMatches, substr_after f hf hdot, substr_pattern_ext ext hlen]

theorem fileNameMatches_file_name (pat f : CppString) (hf : f.length < SIZE_MODULUS)
    (hdot : '.' ∈ pat) :
    fileNameMatches f pat FILE_NAME =
      .ok (decide (beforeFirstDot f = beforeFirstDot pat)) := by
  have h2 : substr pat 0 (find pat '.') = .ok (beforeFirstDot pat) := by
    unfold substr beforeFirstDot
    rw [(find_of_mem pat '.' hdot).1]
    simp [take_indexOf]
  simp only [fileNameMatches, substr_before f hf, h2]

theorem beforeFirstDot_append_dot (name rest : CppString) :
    beforeFirstDot (name ++ '.' :: rest) = beforeFirstDot name := by
  unfold beforeFirstDot
  induction name with
  | nil => simp
  | cons a t ih =>
    by_cases h : a = '.'
    · simp [h]
    · simp [List.takeWhile_cons, h, ih]

/-- C3 (what the code does): in a search by `*.txt` the file named `txt`, which
has no `.`, is collected. -/
theorem extension_search_collects_dotless_name :
    getCmpFileNamePart "*.txt".toList = .ok EXTENSION ∧
    '.' ∉ "txt".toList ∧
    getFiles "C:".toList (.listed [.file "txt".toList]) ⟨[], []⟩ "*.txt".toList EXTENSION =
      .ok ⟨["C:\\txt".toList], []⟩ := by
  decide

/-- C4 (as stated, refuted): the pattern `a.b.*` does not start with `*.` and
is classified as match-by-base-name; the part of the file name `a.txt` before
its first `.` is `a`, not `a.b`, and yet the file is collected. -/
theorem base_name_pattern_with_dot_counterexample :
    ¬ ("*.".toList <+: "a.b".toList ++ ".*".toList) ∧
    getCmpFileNamePart ("a.b".toList ++ ".*".toList) = .ok FILE_NAME ∧
    beforeFirstDot "a.txt".toList ≠ "a.b".toList ∧
    getFiles "C:".toList (.listed [.file "a.txt".toList]) ⟨[], []⟩
        ("a.b".toList ++ ".*".toList) FILE_NAME = .ok ⟨["C:\\a.txt".toList], []⟩ ∧
    ¬ CollectsIff ("a.b".toList ++ ".*".toList) FILE_NAME "a.txt".toList
        (beforeFirstDot "a.txt".toList = "a.b".toList) := by
  refine ⟨by decide, by decide, by decide, by decide, ?_⟩
  intro h
  have h1 := h "C:".toList [] [] ⟨[], []⟩
  revert h1
  decide

/-! ## The walk as a whole -/

theorem joinedPath_cons (r n : CppString) (c : List CppString × CppString) :
    joinedPath r (n :: c.1, c.2) = joinedPath (r ++ SEP ++ n) c := by
  simp [joinedPath, relativePath]

theorem collectPaths_append (r pat : CppString) (m : CMP_FILENAME_PART)
    (xs ys : List (List CppString × CppString)) :
    collectPaths r pat m (xs ++ ys) =
      match collectPaths r pat m xs with
      | .error e => .error e
      | .ok p1 =>
        match collectPaths r pat m ys with
        | .error e => .error e
        | .ok p2 => .ok (p1 ++ p2) := by
  induction xs with
  | nil =>
    simp only [List.nil_append, collectPaths]
    cases collectPaths r pat m ys <;> simp
  | cons c xs ih =>
    rw [List.cons_append]
    simp only [collectPaths]
    rw [ih]
    cases fileNameMatches c.2 pat m with
    | error e => rfl
    | ok b =>
      cases collectPaths r pat m xs with
      | error e => rfl
      | ok p1 =>
        cases collectPaths r pat m ys with
        | error e => rfl
        | ok p2 => cases b <;> simp

theorem collectPaths_map_cons (r n pat : CppString) (m : CMP_FILENAME_PART)
    (xs : List (List CppString × CppString)) :
    collectPaths r pat m (xs.map (fun c => (n :: c.1, c.2))) =
      collectPaths (r ++ SEP ++ n) pat m xs := by
  induction xs with
  | nil => simp [collectPaths]
  | cons c xs ih =>
    simp only [List.map_cons, collectPaths, ih, joinedPath_cons]

mutual
theorem getFiles_eq_collectPaths (r : CppString) (t : Dir) (st : State)
    (pat : CppString) (m : CMP_FILENAME_PART) :
    getFiles r t st pat m =
      match collectPaths r pat m t.regularFiles with
      | .error e => .error e
      | .ok paths => .ok ⟨st.files ++ paths, st.cout ++ t.diagnostics⟩ := by
  cases t with
  | failed code =>
    by_cases h : code = ERROR_FILE_NOT_FOUND <;>
      simp [getFiles, Dir.regularFiles, Dir.diagnostics, collectPaths, h]
  | listed es =>
    rw [getFiles, Dir.regularFiles, Dir.diagnostics]
    exact getFilesLoop_eq_collectPaths r es st pat m
theorem getFilesLoop_eq_collectPaths (r : CppString) (es : List Entry) (st : State)
    (pat : CppString) (m : CMP_FILENAME_PART) :
    getFilesLoop r es st pat m =
      match collectPaths r pat m (regularFilesOfEntries es) with
      | .error e => .error e
      | .ok paths => .ok ⟨st.files ++ paths, st.cout ++ diagnosticsOfEntries es⟩ := by
  cases es with
  | nil => simp [getFilesLoop, regularFilesOfEntries, diagnosticsOfEntries, collectPaths]
  | cons e rest =>
    cases e with
    | file f =>
      simp only [getFilesLoop, regularFilesOfEntries, diagnosticsOfEntries, collectPaths]
      cases fileNameMatches f pat m with
      | error e => rfl
      | ok b =>
        cases b with
        | true =>
          simp only [getFilesLoop_eq_collectPaths r rest _ pat m]
          cases collectPaths r pat m (regularFilesOfEntries rest) with
          | error e => rfl
          | ok paths => simp [State.push_back, joinedPath, relativePath]
        | false =>
          simp only [getFilesLoop_eq_collectPaths r rest _ pat m]
          cases collectPaths r pat m (regularFilesOfEntries rest) with
          | error e => rfl
          | ok paths => simp
    | dir n sub =>
      simp only [getFilesLoop, regularFilesOfEntries, diagnosticsOfEntries]
      split
      · exact getFilesLoop_eq_collectPaths r rest st pat m
      · rw [getFiles_eq_collectPaths (r ++ SEP ++ n) sub st pat m, collectPaths_append,
          collectPaths_map_cons]
        cases collectPaths (r ++ SEP ++ n) pat m sub.regularFiles with
        | error e => rfl
        | ok p1 =>
          simp only [getFilesLoop_eq_collectPaths r rest _ pat m]
          cases collectPaths r pat m (regularFilesOfEntries rest) with
          | error e => rfl
          | ok p2 => simp
end

theorem collectPaths_nothing (r pat : CppString) (cs : List (List CppString × CppString)) :
    collectPaths r pat NOTHING cs = .ok (cs.map (joinedPath r)) := by
  induction cs with
  | nil => rfl
  | cons c cs ih => simp [collectPaths, fileNameMatches, ih]

theorem getFiles_nothing (r : CppString) (t : Dir) (st : State) (pat : CppString) :
    getFiles r t st pat NOTHING =
      .ok ⟨st.files ++ t.regularFiles.map (joinedPath r), st.cout ++ t.diagnostics⟩ := by
  rw [getFiles_eq_collectPaths, collectPaths_nothing]

/-! ## Distinct names give distinct paths -/

theorem append_sep_inj (a b x y : CppString) (ha : '\\' ∉ a) (hb : '\\' ∉ b)
    (h : a ++ '\\' :: x = b ++ '\\' :: y) : a = b ∧ x = y := by
  induction a generalizing b with
  | nil =>
    cases b with
    | nil => simpa using h
    | cons c b =>
      simp at h
      exact absurd (h.1 ▸ List.mem_cons_self _ _) hb
  | cons c a ih =>
    cases b with
    | nil =>
      simp at h
      exact absurd (h.1 ▸ List.mem_cons_self _ _) ha
    | cons d b =>
      simp only [List.cons_append, List.cons.injEq] at h
      have ha2 : '\\' ∉ a := fun hm => ha (List.mem_cons_of_mem _ hm)
      have hb2 : '\\' ∉ b := fun hm => hb (List.mem_cons_of_mem _ hm)
      obtain ⟨h1, h2⟩ := ih b ha2 hb2 h.2
      exact ⟨by rw [h.1, h1], h2⟩

theorem relativePath_head (ds : List CppString) (f : CppString) :
    ∃ x, relativePath ds f = '\\' :: x := by
  cases ds with
  | nil => exact ⟨f, rfl⟩
  | cons s ds => exact ⟨s ++ relativePath ds f, rfl⟩

theorem relativePath_inj (c1 c2 : List CppString × CppString)
    (h1 : sepFree c1) (h2 : sepFree c2)
    (h : relativePath c1.1 c1.2 = relativePath c2.1 c2.2) : c1 = c2 := by
  obtain ⟨ds1, f1⟩ := c1
  obtain ⟨ds2, f2⟩ := c2
  simp only at h
  induction ds1 generalizing ds2 with
  | nil =>
    cases ds2 with
    | nil =>
      simp [relativePath, SEP] at h
      rw [h]
    | cons s ds2 =>
      exfalso
      obtain ⟨x, hx⟩ := relativePath_head ds2 f2
      simp [relativePath, SEP, hx] at h
      exact h1.2 (by rw [h]; simp)
  | cons s ds1 ih =>
    cases ds2 with
    | nil =>
      exfalso
      obtain ⟨x, hx⟩ := relativePath_head ds1 f1
      simp [relativePath, SEP, hx] at h
      exact h2.2 (by rw [← h]; simp)
    | cons s2 ds2 =>
      obtain ⟨x, hx⟩ := relativePath_head ds1 f1
      obtain ⟨y, hy⟩ := relativePath_head ds2 f2
      have h3 : s ++ '\\' :: x = s2 ++ '\\' :: y := by
        simpa [relativePath, SEP, hx, hy] using h
      obtain ⟨hs, hxy⟩ := append_sep_inj s s2 x y (h1.1 s (by simp)) (h2.1 s2 (by simp)) h3
      have h4 : relativePath ds1 f1 = relativePath ds2 f2 := by rw [hx, hy, hxy]
      have h5 := ih ⟨fun s hs => h1.1 s (List.mem_cons_of_mem _ hs), h1.2⟩ ds2
        ⟨fun s hs => h2.1 s (List.mem_cons_of_mem _ hs), h2.2⟩ h4
      simp only [Prod.mk.injEq] at h5
      simp [hs, h5.1, h5.2]

theorem firstName_mem (es : List Entry) (c : List CppString × CppString)
    (h : c ∈ regularFilesOfEntries es) : firstName c ∈ es.map Entry.name := by
  induction es with
  | nil => simp [regularFilesOfEntries] at h
  | cons e rest ih =>
    cases e with
    | file f =>
      simp only [regularFilesOfEntries, List.mem_cons] at h
      rcases h with h | h
      · simp [h, firstName, Entry.name]
      · exact List.mem_cons_of_mem _ (ih h)
    | dir n sub =>
      simp only [regularFilesOfEntries] at h
      split at h
      · exact List.mem_cons_of_mem _ (ih h)
      · rcases List.mem_append.mp h with h | h
        · obtain ⟨c0, _, hc0⟩ := List.mem_map.mp h
          simp [← hc0, firstName, Entry.name]
        · exact List.mem_cons_of_mem _ (ih h)

mutual
theorem regularFiles_nodup (t : Dir) (h : t.wellNamed = true) :
    t.regularFiles.Nodup ∧ ∀ c ∈ t.regularFiles, sepFree c := by
  cases t with
  | failed code => simp [Dir.regularFiles]
  | listed es =>
    simp only [Dir.wellNamed, Bool.and_eq_true, decide_eq_true_eq] at h
    rw [Dir.regularFiles]
    exact regularFilesOfEntries_nodup es h.1 h.2
theorem regularFilesOfEntries_nodup (es : List Entry)
    (hn : (es.map Entry.name).Nodup) (h : wellNamedEntries es = true) :
    (regularFilesOfEntries es).Nodup ∧ ∀ c ∈ regularFilesOfEntries es, sepFree c := by
  cases es with
  | nil => simp [regularFilesOfEntries]
  | cons e rest =>
    rw [List.map_cons, List.nodup_cons] at hn
    cases e with
    | file f =>
      simp only [wellNamedEntries, Bool.and_eq_true, decide_eq_true_eq] at h
      obtain ⟨ih1, ih2⟩ := regularFilesOfEntries_nodup rest hn.2 h.2
      simp only [regularFilesOfEntries, List.nodup_cons, List.mem_cons]
      refine ⟨⟨fun hm => hn.1 (firstName_mem rest _ hm), ih1⟩, ?_⟩
      intro c hc
      rcases hc with hc | hc
      · rw [hc]; exact ⟨by simp, h.1⟩
      · exact ih2 c hc
    | dir n sub =>
      simp only [wellNamedEntries, Bool.and_eq_true, decide_eq_true_eq] at h
      obtain ⟨ih1, ih2⟩ := regularFilesOfEntries_nodup rest hn.2 h.2
      obtain ⟨ihs1, ihs2⟩ := regularFiles_nodup sub h.1.2
      simp only [regularFilesOfEntries]
      split
      · exact ⟨ih1, ih2⟩
      · constructor
        · rw [List.nodup_append]
          refine ⟨?_, ih1, ?_⟩
          · apply List.Nodup.map _ ihs1
            intro a b hab
            simp only [Prod.mk.injEq, List.cons.injEq, true_and] at hab
            exact Prod.ext hab.1 hab.2
          · intro c hc1 hc2
            obtain ⟨c0, _, hc0⟩ := List.mem_map.mp hc1
            have := firstName_mem rest c hc2
            rw [← hc0] at this
            exact hn.1 this
        · intro c hc
          rcases List.mem_append.mp hc with hc | hc
          · obtain ⟨c0, hc0m, hc0⟩ := List.mem_map.mp hc
            have h0 := ihs2 c0 hc0m
            rw [← hc0]
            refine ⟨?_, h0.2⟩
            intro s hs
            rcases List.mem_cons.mp hs with hs | hs
            · rw [hs]; exact h.1.1
            · exact h0.1 s hs
          · exact ih2 c hc
end

theorem joinedPaths_nodup (r : CppString) (t : Dir) (h : t.wellNamed = true) :
    (t.regularFiles.map (joinedPath r)).Nodup := by
  obtain ⟨h1, h2⟩ := regularFiles_nodup t h
  apply List.Nodup.map_on _ h1
  intro a ha b hb hab
  exact relativePath_inj a b (h2 a ha) (h2 b hb) (List.append_cancel_left hab)

/-- C6: for the pattern `*.*` the classifier returns match-all, and `getFiles`
started with an empty list returns the joined paths of the regular files of
the tree, one entry for each: as many entries as the tree has regular files,
the joined path of every regular file among them, and no entry twice when the
names inside each directory are pairwise distinct and without separator. -/
theorem match_all_returns_every_file_once (root : CppString) (t : Dir) :
    getCmpFileNamePart "*.*".toList = .ok NOTHING ∧
    ∃ st, getFiles root t ⟨[], []⟩ "*.*".toList NOTHING = .ok st ∧
      st.files = t.regularFiles.map (joinedPath root) ∧
      st.files.length = t.regularFiles.length ∧
      (∀ c ∈ t.regularFiles, joinedPath root c ∈ st.files) ∧
      (t.wellNamed = true → st.files.Nodup) := by
  refine ⟨by decide, _, getFiles_nothing root t ⟨[], []⟩ _, by simp, by simp, ?_, ?_⟩
  · intro c hc
    simp only [List.nil_append]
    exact List.mem_map_of_mem _ hc
  · intro h
    simp only [List.nil_append]
    exact joinedPaths_nodup root t h

theorem match_all_returns_every_file_once_witness :
    (Dir.listed [.file "a.txt".toList,
      .dir "sub".toList (.listed [.file "a.txt".toList, .file "c".toList])]).wellNamed = true ∧
    ∃ st, getFiles "C:".toList
        (.listed [.file "a.txt".toList,
          .dir "sub".toList (.listed [.file "a.txt".toList, .file "c".toList])])
        ⟨[], []⟩ "*.*".toList NOTHING = .ok st ∧
      st.files.length = 3 ∧ st.files.Nodup :=
  ⟨by decide,
    match (match_all_returns_every_file_once "C:".toList
      (.listed [.file "a.txt".toList,
        .dir "sub".toList (.listed [.file "a.txt".toList, .file "c".toList])])).2 with
    | ⟨st, h1, _, h3, _, h5⟩ => ⟨st, h1, by rw [h3]; decide, h5 (by decide)⟩⟩

/-! ## The scenario of the specification -/

theorem perm_pair {α : Type} (x y : α) (l : List α) (h : l.Perm [x, y]) :
    l = [x, y] ∨ l = [y, x] := by
  match l, h with
  | [a, b], h =>
    have ha : a ∈ [x, y] := h.mem_iff.mp (by simp)
    simp only [List.mem_cons, List.mem_singleton, List.not_mem_nil, or_false] at ha
    rcases ha with ha | ha
    · subst ha
      have hb := List.perm_singleton.mp (List.Perm.cons_inv h)
      simp at hb
      exact Or.inl (by rw [hb])
    · subst ha
      have h2 : [a, b].Perm [a, x] := h.trans (List.Perm.swap a x [])
      have hb := List.perm_singleton.mp (List.Perm.cons_inv h2)
      simp at hb
      exact Or.inr (by rw [hb])
  | [], h => simp at h
  | [_], h => exact absurd h.length_eq (by simp)
  | _ :: _ :: _ :: _, h => exact absurd h.length_eq (by simp)

theorem perm_rotate3 {α : Type} (a b c : α) : [b, c, a].Perm [a, b, c] :=
  (List.perm_append_comm : ([b, c] ++ [a]).Perm ([a] ++ [b, c]))

theorem perm_reverse3 {α : Type} (a b c : α) : [c, b, a].Perm [a, b, c] :=
  List.reverse_perm [a, b, c]

/-- C7: on the tree whose root lists the file `a.txt` and the subdirectory
`sub`, which lists the files `b.txt` and `c.md`, in any listing order, the
search returns for `*.txt` the paths of `a.txt` and `sub\\b.txt`, for `b.*` the
path of `sub\\b.txt`, for `a.txt` the path of `a.txt`, and for `*.*` the paths of
the three files (up to the order of the list). -/
theorem scenario_results (root : CppString) (rootEntries subEntries : List Entry)
    (hsub : subEntries.Perm [.file "b.txt".toList, .file "c.md".toList])
    (hroot : rootEntries.Perm
      [.file "a.txt".toList, .dir "sub".toList (.listed subEntries)]) :
    (∃ st, searchFiles root "*.txt".toList (.listed rootEntries) = .ok st ∧
      st.files.Perm [root ++ "\\a.txt".toList, root ++ "\\sub\\b.txt".toList]) ∧
    (∃ st, searchFiles root "b.*".toList (.listed rootEntries) = .ok st ∧
      st.files = [root ++ "\\sub\\b.txt".toList]) ∧
    (∃ st, searchFiles root "a.txt".toList (.listed rootEntries) = .ok st ∧
      st.files = [root ++ "\\a.txt".toList]) ∧
    (∃ st, searchFiles root "*.*".toList (.listed rootEntries) = .ok st ∧
      st.files.Perm [root ++ "\\a.txt".toList, root ++ "\\sub\\b.txt".toList,
        root ++ "\\sub\\c.md".toList]) := by
  have c1 : getCmpFileNamePart "*.txt".toList = .ok EXTENSION := by decide
  have c2 : getCmpFileNamePart "b.*".toList = .ok FILE_NAME := by decide
  have c3 : getCmpFileNamePart "a.txt".toList = .ok EVERYTHING := by decide
  have c4 : getCmpFileNamePart "*.*".toList = .ok NOTHING := by decide
  have a1 : fileNameMatches "a.txt".toList "*.txt".toList EXTENSION = .ok true := by decide
  have b1 : fileNameMatches "b.txt".toList "*.txt".toList EXTENSION = .ok true := by decide
  have d1 : fileNameMatches "c.md".toList "*.txt".toList EXTENSION = .ok false := by decide
  have a2 : fileNameMatches "a.txt".toList "b.*".toList FILE_NAME = .ok false := by decide
  have b2 : fileNameMatches "b.txt".toList "b.*".toList FILE_NAME = .ok true := by decide
  have d2 : fileNameMatches "c.md".toList "b.*".toList FILE_NAME = .ok false := by decide
  have a3 : fileNameMatches "a.txt".toList "a.txt".toList EVERYTHING = .ok true := by decide
  have b3 : fileNameMatches "b.txt".toList "a.txt".toList EVERYTHING = .ok false := by decide
  have d3 : fileNameMatches "c.md".toList "a.txt".toList EVERYTHING = .ok false := by decide
  have n4 : ∀ f : CppString, fileNameMatches f "*.*".toList NOTHING = .ok true :=
    fun _ => rfl
  have hn1 : ¬ ("sub".toList = ".".toList ∨ "sub".toList = "..".toList) := by decide
  unfold searchFiles
  rw [c1, c2, c3, c4]
  simp only [getFiles_listed]
  rcases perm_pair _ _ _ hsub with hs | hs <;> rcases perm_pair _ _ _ hroot with hr | hr <;>
    subst hs <;> subst hr <;>
    simp only [getFilesLoop, getFiles_listed, a1, b1, d1, a2, b2, d2, a3, b3, d3, n4,
      if_neg hn1, State.push_back, List.nil_append, List.cons_append,
      exists_eq_left', SEP, List.append_assoc, List.singleton_append] <;>
    refine ⟨?_, ?_, ?_, ?_⟩ <;> simp [List.Perm.swap, perm_rotate3, perm_reverse3]

theorem scenario_results_witness :
    [Entry.file "b.txt".toList, .file "c.md".toList].Perm
      [.file "b.txt".toList, .file "c.md".toList] ∧
    [Entry.file "a.txt".toList,
        .dir "sub".toList (.listed [.file "b.txt".toList, .file "c.md".toList])].Perm
      [.file "a.txt".toList,
        .dir "sub".toList (.listed [.file "b.txt".toList, .file "c.md".toList])] ∧
    ∃ st, searchFiles "C:".toList "*.txt".toList
        (.listed [.file "a.txt".toList,
          .dir "sub".toList (.listed [.file "b.txt".toList, .file "c.md".toList])]) = .ok st ∧
      st.files.Perm ["C:".toList ++ "\\a.txt".toList, "C:".toList ++ "\\sub\\b.txt".toList] :=
  ⟨List.Perm.refl _, List.Perm.refl _,
    (scenario_results "C:".toList _ _ (List.Perm.refl _) (List.Perm.refl _)).1⟩

/-! ## The form of the collected paths -/

theorem collectPaths_sublist (r pat : CppString) (m : CMP_FILENAME_PART)
    (cs : List (List CppString × CppString)) (paths : List CppString)
    (h : collectPaths r pat m cs = .ok paths) :
    ∃ kept : List (List CppString × CppString),
      kept.Sublist cs ∧ paths = kept.map (joinedPath r) := by
  induction cs generalizing paths with
  | nil =>
    simp only [collectPaths, Except.ok.injEq] at h
    exact ⟨[], List.Sublist.refl _, by rw [← h]; rfl⟩
  | cons c cs ih =>
    simp only [collectPaths] at h
    cases hm : fileNameMatches c.2 pat m with
    | error e => rw [hm] at h; simp at h
    | ok b =>
      rw [hm] at h
      cases hc : collectPaths r pat m cs with
      | error e => rw [hc] at h; simp at h
      | ok p =>
        rw [hc] at h
        obtain ⟨kept, hk1, hk2⟩ := ih p hc
        simp only [Except.ok.injEq] at h
        cases b with
        | true =>
          refine ⟨c :: kept, hk1.cons₂ c, ?_⟩
          rw [← h, hk2]; simp
        | false =>
          refine ⟨kept, hk1.cons c, ?_⟩
          rw [← h, hk2]; simp

theorem sizeAdd_find_le (f : CppString) : sizeAdd (find f '.') 1 ≤ f.length := by
  by_cases hm : '.' ∈ f
  · obtain ⟨h1, h2⟩ := find_of_mem f '.' hm
    rw [h1]
    unfold sizeAdd
    exact le_trans (Nat.mod_le _ _) (by omega)
  · rw [find_of_not_mem f '.' hm]
    have : sizeAdd npos 1 = 0 := by
      unfold sizeAdd npos SIZE_MODULUS; norm_num
    rw [this]
    exact Nat.zero_le _

theorem fileNameMatches_ok (f pat : CppString) (m : CMP_FILENAME_PART)
    (h : m = EXTENSION → 2 ≤ pat.length) : ∃ b, fileNameMatches f pat m = .ok b := by
  cases m with
  | NOTHING => exact ⟨_, rfl⟩
  | EVERYTHING => exact ⟨_, rfl⟩
  | FILE_NAME => simp [fileNameMatches, substr]
  | EXTENSION =>
    have h1 := sizeAdd_find_le f
    have h2 := h rfl
    simp [fileNameMatches, substr, Nat.not_lt.mpr h1, Nat.not_lt.mpr h2]

theorem collectPaths_ok (r pat : CppString) (m : CMP_FILENAME_PART)
    (h : m = EXTENSION → 2 ≤ pat.length) (cs : List (List CppString × CppString)) :
    ∃ paths, collectPaths r pat m cs = .ok paths := by
  induction cs with
  | nil => exact ⟨_, rfl⟩
  | cons c cs ih =>
    obtain ⟨b, hb⟩ := fileNameMatches_ok c.2 pat m h
    obtain ⟨p, hp⟩ := ih
    exact ⟨if b = true then joinedPath r c :: p else p, by simp only [collectPaths, hb, hp]⟩

/-- C8: every path that `getFiles` appends is the path of the directory of the
listing, one separator and the name of the file; a subdirectory `s` of the
directory with path `root` is walked with the path `root\\s`; so the list that
`getFiles` returns is the initial list followed by joined paths
`root\\s1\\...\\sk\\f` of regular files of the tree, in their order, whatever
the pattern and the mode; and `getFiles` returns, unless the mode is
match-by-extension with a pattern shorter than two characters. -/
theorem collected_paths_are_joined (root : CppString) (t : Dir) (st : State)
    (pat : CppString) (m : CMP_FILENAME_PART) :
    (∀ (before after : List Entry) (f : CppString),
      getFiles root (.listed (before ++ .file f :: after)) st pat m =
        match getFiles root (.listed before) st pat m with
        | .error e => .error e
        | .ok st1 =>
          match fileNameMatches f pat m with
          | .error e => .error e
          | .ok b =>
            getFiles root (.listed after)
              (if b = true then st1.push_back (root ++ SEP ++ f) else st1) pat m) ∧
    (∀ (before after : List Entry) (s : CppString) (sub : Dir),
      ¬ (s = ".".toList ∨ s = "..".toList) →
      getFiles root (.listed (before ++ .dir s sub :: after)) st pat m =
        match getFiles root (.listed before) st pat m with
        | .error e => .error e
        | .ok st1 =>
          match getFiles (root ++ SEP ++ s) sub st1 pat m with
          | .error e => .error e
          | .ok st2 => getFiles root (.listed after) st2 pat m) ∧
    (∀ st1, getFiles root t st pat m = .ok st1 →
      ∃ kept : List (List CppString × CppString),
        kept.Sublist t.regularFiles ∧ st1.files = st.files ++ kept.map (joinedPath root)) ∧
    ((m = EXTENSION → 2 ≤ pat.length) → ∃ st1, getFiles root t st pat m = .ok st1) := by
  refine ⟨?_, ?_, ?_, ?_⟩
  · intro before after f
    rw [getFiles_listed, getFiles_listed, getFilesLoop_append]
    cases getFilesLoop root before st pat m with
    | error e => rfl
    | ok st1 =>
      simp only [getFiles_listed, getFilesLoop]
      cases fileNameMatches f pat m with
      | error e => rfl
      | ok b => cases b <;> simp
  · intro before after s sub hs
    rw [getFiles_listed, getFiles_listed, getFilesLoop_append]
    cases getFilesLoop root before st pat m with
    | error e => rfl
    | ok st1 => simp only [getFiles_listed, getFilesLoop, if_neg hs]
  · intro st1 h
    rw [getFiles_eq_collectPaths] at h
    cases hc : collectPaths root pat m t.regularFiles with
    | error e => rw [hc] at h; simp at h
    | ok paths =>
      rw [hc] at h
      obtain ⟨kept, hk1, hk2⟩ := collectPaths_sublist root pat m _ paths hc
      simp only [Except.ok.injEq] at h
      exact ⟨kept, hk1, by rw [← h, hk2]⟩
  · intro h
    obtain ⟨paths, hp⟩ := collectPaths_ok root pat m h t.regularFiles
    rw [getFiles_eq_collectPaths, hp]
    exact ⟨_, rfl⟩

theorem collected_paths_are_joined_witness :
    (∃ kept : List (List CppString × CppString),
      kept.Sublist (Dir.listed [.file "a.txt".toList,
        .dir "sub".toList (.listed [.file "b.txt".toList, .file "c.md".toList])]).regularFiles ∧
      ["C:\\a.txt".toList, "C:\\sub\\b.txt".toList] =
        [] ++ kept.map (joinedPath "C:".toList)) ∧
    (∃ st1, getFiles "C:".toList (.listed [.file "a.txt".toList,
        .dir "sub".toList (.listed [.file "b.txt".toList, .file "c.md".toList])])
        ⟨[], []⟩ "*.txt".toList EXTENSION = .ok st1) ∧
    getFiles "C:".toList (.listed ([.file "a.txt".toList] ++
        .dir "sub".toList (.listed [.file "b.txt".toList]) :: [])) ⟨[], []⟩
        "*.txt".toList EXTENSION =
      (match getFiles "C:".toList (.listed [.file "a.txt".toList]) ⟨[], []⟩
          "*.txt".toList EXTENSION with
        | .error e => .error e
        | .ok st1 =>
          match getFiles ("C:".toList ++ SEP ++ "sub".toList) (.listed [.file "b.txt".toList])
              st1 "*.txt".toList EXTENSION with
          | .error e => .error e
          | .ok st2 => getFiles "C:".toList (.listed []) st2 "*.txt".toList EXTENSION) :=
  ⟨(collected_paths_are_joined "C:".toList _ ⟨[], []⟩ "*.txt".toList EXTENSION).2.2.1
      ⟨["C:\\a.txt".toList, "C:\\sub\\b.txt".toList], []⟩ (by decide),
    (collected_paths_are_joined "C:".toList _ ⟨[], []⟩ "*.txt".toList EXTENSION).2.2.2
      (fun _ => by decide),
    (collected_paths_are_joined "C:".toList (.listed []) ⟨[], []⟩ "*.txt".toList EXTENSION).2.1
      [.file "a.txt".toList] [] "sub".toList (.listed [.file "b.txt".toList]) (by decide)⟩

/-- C9: when the start directory has nothing to list (no entry at all, or only
the entries `.` and `..`), or when its listing fails with
`ERROR_FILE_NOT_FOUND`, `getFiles` returns with the list and the output as they
were: started with an empty list it returns the empty list and writes no
diagnostic, for every pattern and mode. -/
theorem empty_or_missing_directory (root pat : CppString) (m : CMP_FILENAME_PART)
    (st : State) :
    getFiles root (.listed []) st pat m = .ok st ∧
    getFiles root (.failed ERROR_FILE_NOT_FOUND) st pat m = .ok st ∧
    getFiles root (.listed []) ⟨[], []⟩ pat m = .ok ⟨[], []⟩ ∧
    getFiles root (.failed ERROR_FILE_NOT_FOUND) ⟨[], []⟩ pat m = .ok ⟨[], []⟩ ∧
    ∀ entries : List Entry,
      (∀ e ∈ entries, ∃ sub, e = .dir ".".toList sub ∨ e = .dir "..".toList sub) →
      getFiles root (.listed entries) st pat m = .ok st := by
  refine ⟨by simp [getFiles, getFilesLoop], by simp [getFiles],
    by simp [getFiles, getFilesLoop], by simp [getFiles], ?_⟩
  intro entries h
  rw [getFiles_listed]
  induction entries with
  | nil => simp [getFilesLoop]
  | cons e rest ih =>
    obtain ⟨sub, he⟩ := h e (List.mem_cons_self _ _)
    have ih2 := ih (fun e2 he2 => h e2 (List.mem_cons_of_mem _ he2))
    rcases he with he | he <;> subst he <;> simp [getFilesLoop, ih2]

theorem empty_or_missing_directory_witness :
    (∀ e ∈ [Entry.dir ".".toList (.listed []), Entry.dir "..".toList (.failed 5)],
      ∃ sub, e = .dir ".".toList sub ∨ e = .dir "..".toList sub) ∧
    getFiles "C:".toList
      (.listed [Entry.dir ".".toList (.listed []), Entry.dir "..".toList (.failed 5)])
      ⟨[], []⟩ "*.*".toList NOTHING = .ok ⟨[], []⟩ :=
  ⟨by simp,
    (empty_or_missing_directory "C:".toList "*.*".toList NOTHING ⟨[], []⟩).2.2.2.2 _ (by simp)⟩

/-! ## A failed listing is local -/

theorem regularFilesOfEntries_append (xs ys : List Entry) :
    regularFilesOfEntries (xs ++ ys) = regularFilesOfEntries xs ++ regularFilesOfEntries ys := by
  induction xs with
  | nil => simp [regularFilesOfEntries]
  | cons e rest ih =>
    cases e with
    | file f => simp [regularFilesOfEntries, ih]
    | dir n sub =>
      simp only [List.cons_append, regularFilesOfEntries]
      split <;> simp [ih]

theorem regularFiles_plug (path : List (List Entry × CppString × List Entry)) (code : Nat) :
    (plug path (.failed code)).regularFiles = (plug path (.listed [])).regularFiles := by
  induction path with
  | nil => simp [plug, Dir.regularFiles, regularFilesOfEntries]
  | cons p path ih =>
    obtain ⟨before, name, after⟩ := p
    simp only [plug, Dir.regularFiles, regularFilesOfEntries_append, regularFilesOfEntries, ih]

/-- C10: a failed listing is local to its directory: for every tree, pattern
and mode, and every subdirectory whose listing fails, with any error code,
`getFiles` returns for the whole tree the list that it returns for the tree
with an empty directory in place of that subdirectory (and raises
`std::out_of_range` for the one exactly when it does for the other). -/
theorem failed_listing_is_local (path : List (List Entry × CppString × List Entry))
    (code : Nat) (root : CppString) (st : State) (pat : CppString)
    (m : CMP_FILENAME_PART) :
    (getFiles root (plug path (.failed code)) st pat m).map State.files =
      (getFiles root (plug path (.listed [])) st pat m).map State.files := by
  rw [getFiles_eq_collectPaths, getFiles_eq_collectPaths, regularFiles_plug]
  cases collectPaths root pat m (plug path (.listed [])).regularFiles with
  | error e => rfl
  | ok paths => rfl

/-! ## The match-all mode and the reads of the classifier -/

/-- C11 (as stated, refuted): the pattern `*.*x` has four characters, is not the
pattern `*.*`, and is classified as match-all. -/
theorem match_all_longer_pattern_counterexample :
    2 ≤ "*.*x".toList.length ∧ "*.*x".toList ≠ "*.*".toList ∧
    getCmpFileNamePart "*.*x".toList = .ok NOTHING := by
  decide

/-- C11 (amended): for every pattern of at least two characters
`getCmpFileNamePart` returns match-all if and only if the pattern starts with
the three characters `*.*`. -/
theorem match_all_iff_starts_with_star_dot_star (pattern : CppString)
    (h : 2 ≤ pattern.length) :
    getCmpFileNamePart pattern = .ok NOTHING ↔ "*.*".toList <+: pattern := by
  match pattern, h with
  | a :: b :: rest, _ =>
    have hp : "*.*".toList <+: a :: b :: rest ↔
        a = '*' ∧ b = '.' ∧ rest.head? = some '*' := by
      cases rest with
      | nil => simp [List.cons_prefix_cons]
      | cons c rest2 => simp [List.cons_prefix_cons, eq_comm]
    rw [getCmpFileNamePart_cons_cons, hp]
    by_cases hab : a = '*' ∧ b = '.'
    · rw [if_pos hab]
      by_cases hc : rest.head? = some '*'
      · simp [hab.1, hab.2, hc]
      · simp [hab.1, hab.2, hc]
    · rw [if_neg hab]
      constructor
      · intro h1
        split at h1 <;> simp at h1
      · intro h1
        exact absurd ⟨h1.1, h1.2.1⟩ hab

theorem match_all_iff_starts_with_star_dot_star_witness :
    2 ≤ "*.*x".toList.length ∧
    (getCmpFileNamePart "*.*x".toList = .ok NOTHING ↔ "*.*".toList <+: "*.*x".toList) :=
  ⟨by decide, match_all_iff_starts_with_star_dot_star "*.*x".toList (by decide)⟩

/-- C12: `getCmpFileNamePart` reads only positions of the pattern, and returns a
mode, if and only if the pattern has at least two characters; for a pattern of
zero or one character the first read outside of the pattern is the read of
`*(end() - 2)`, at the position `size - 2`, before the start of the string. -/
theorem reads_in_bounds_iff_two_characters (pattern : CppString) :
    ((∃ m, getCmpFileNamePart pattern = .ok m) ↔ 2 ≤ pattern.length) ∧
    (pattern.length < 2 →
      getCmpFileNamePart pattern = .error (.outOfBounds ((pattern.length : Int) - 2)) ∧
      (pattern.length : Int) - 2 < 0) := by
  have hshort : pattern.length < 2 →
      getCmpFileNamePart pattern = .error (.outOfBounds ((pattern.length : Int) - 2)) := by
    intro h
    match pattern, h with
    | [], _ => simp [getCmpFileNamePart, charAt]
    | [a], _ =>
      by_cases ha : a = '*'
      · simp [getCmpFileNamePart, charAt, ha]
      · simp [getCmpFileNamePart, charAt, ha]
  refine ⟨⟨?_, ?_⟩, ?_⟩
  · intro ⟨m, hm⟩
    by_contra hlt
    rw [hshort (by omega)] at hm
    simp at hm
  · intro h
    exact ⟨_, getCmpFileNamePart_eq_classify pattern h⟩
  · intro h
    exact ⟨hshort h, by omega⟩

theorem reads_in_bounds_iff_two_characters_witness :
    "*".toList.length < 2 ∧
    getCmpFileNamePart "*".toList = .error (.outOfBounds (("*".toList.length : Int) - 2)) ∧
    ("*".toList.length : Int) - 2 < 0 :=
  ⟨by decide, (reads_in_bounds_iff_two_characters "*".toList).2 (by decide)⟩

/-! ## Order of the result, frame and diagnostics -/

theorem concatContributions_eq_collectPaths (d pat : CppString) (m : CMP_FILENAME_PART)
    (es : List Entry) :
    concatContributions d pat m es = collectPaths d pat m (regularFilesOfEntries es) := by
  induction es with
  | nil => simp [concatContributions, regularFilesOfEntries, collectPaths]
  | cons e rest ih =>
    cases e with
    | file f =>
      simp only [concatContributions, contribution, regularFilesOfEntries, collectPaths, ih]
      cases fileNameMatches f pat m with
      | error e => rfl
      | ok b =>
        cases collectPaths d pat m (regularFilesOfEntries rest) with
        | error e => cases b <;> rfl
        | ok paths => cases b <;> simp [joinedPath, relativePath]
    | dir n sub =>
      by_cases hp : n = ".".toList ∨ n = "..".toList
      · simp only [concatContributions, contribution, regularFilesOfEntries, ih, if_pos hp]
        cases collectPaths d pat m (regularFilesOfEntries rest) with
        | error e => rfl
        | ok paths => simp
      · simp only [concatContributions, contribution, regularFilesOfEntries, ih, if_neg hp]
        rw [getFiles_eq_collectPaths, collectPaths_append, collectPaths_map_cons]
        cases collectPaths (d ++ SEP ++ n) pat m sub.regularFiles with
        | error e => rfl
        | ok p1 => simp [Except.map]

theorem contribution_eq_getFiles (d pat : CppString) (m : CMP_FILENAME_PART) (e : Entry) :
    contribution d pat m e = (getFiles d (.listed [e]) ⟨[], []⟩ pat m).map State.files := by
  cases e with
  | file f =>
    simp only [contribution, getFiles_listed, getFilesLoop]
    cases fileNameMatches f pat m with
    | error e => rfl
    | ok b => cases b <;> simp [Except.map, State.push_back]
  | dir n sub =>
    by_cases hp : n = ".".toList ∨ n = "..".toList
    · simp only [contribution, getFiles_listed, getFilesLoop, if_pos hp]
      rfl
    · simp only [contribution, getFiles_listed, getFilesLoop, if_neg hp]
      cases getFiles (d ++ SEP ++ n) sub ⟨[], []⟩ pat m with
      | error e => rfl
      | ok st1 => rfl

/-- C13: the result follows the order of the listing: for every directory,
pattern and mode, the list that `getFiles` produces is the initial list
followed by the contributions of the entries, taken in the order in which the
listing yields them, where the contribution of an entry is what `getFiles`
produces for a listing of that entry alone: the joined path of a matching
regular file, nothing for another regular file, the recursively produced list
for a subdirectory. -/
theorem result_follows_listing_order (dirPath pat : CppString) (m : CMP_FILENAME_PART)
    (entries : List Entry) (st : State) :
    (getFiles dirPath (.listed entries) st pat m).map State.files =
      (concatContributions dirPath pat m entries).map (fun l => st.files ++ l) ∧
    ∀ e : Entry, contribution dirPath pat m e =
      (getFiles dirPath (.listed [e]) ⟨[], []⟩ pat m).map State.files := by
  refine ⟨?_, contribution_eq_getFiles dirPath pat m⟩
  rw [getFiles_eq_collectPaths, concatContributions_eq_collectPaths, Dir.regularFiles]
  cases collectPaths dirPath pat m (regularFilesOfEntries entries) with
  | error e => rfl
  | ok paths => rfl

/-- C14: the result list is append-only: for every initial list, tree, pattern
and mode, the list after `getFiles` is the initial list followed by the list
that `getFiles` produces when started from the empty list. -/
theorem result_is_append_only (root : CppString) (t : Dir) (st : State)
    (pat : CppString) (m : CMP_FILENAME_PART) :
    (getFiles root t st pat m).map State.files =
      (getFiles root t ⟨[], []⟩ pat m).map (fun st0 => st.files ++ st0.files) := by
  rw [getFiles_eq_collectPaths, getFiles_eq_collectPaths]
  cases collectPaths root pat m t.regularFiles with
  | error e => rfl
  | ok paths => simp [Except.map]

mutual
theorem diagnostics_eq_reportedCodes (t : Dir) :
    t.diagnostics = t.reportedCodes.map failureLine := by
  cases t with
  | failed code =>
    by_cases h : code = ERROR_FILE_NOT_FOUND <;> simp [Dir.diagnostics, Dir.reportedCodes, h]
  | listed es =>
    rw [Dir.diagnostics, Dir.reportedCodes]
    exact diagnosticsOfEntries_eq_reportedCodes es
theorem diagnosticsOfEntries_eq_reportedCodes (es : List Entry) :
    diagnosticsOfEntries es = (reportedCodesOfEntries es).map failureLine := by
  cases es with
  | nil => simp [diagnosticsOfEntries, reportedCodesOfEntries]
  | cons e rest =>
    cases e with
    | file f =>
      simp only [diagnosticsOfEntries, reportedCodesOfEntries]
      exact diagnosticsOfEntries_eq_reportedCodes rest
    | dir n sub =>
      by_cases hp : n = ".".toList ∨ n = "..".toList
      · simp only [diagnosticsOfEntries, reportedCodesOfEntries, if_pos hp]
        exact diagnosticsOfEntries_eq_reportedCodes rest
      · simp only [diagnosticsOfEntries, reportedCodesOfEntries, if_neg hp, List.map_append]
        rw [diagnostics_eq_reportedCodes sub, diagnosticsOfEntries_eq_reportedCodes rest]
end

/-- C15: with the output as a log, `getFiles` writes one line for each directory
of the walk whose listing fails with a code other than `ERROR_FILE_NOT_FOUND`,
in the order of the walk, and no other line; the line holds the error code in
decimal; a listing that fails with `ERROR_FILE_NOT_FOUND` writes nothing. -/
theorem diagnostics_report_failed_listings (root : CppString) (t : Dir) (st : State)
    (pat : CppString) (m : CMP_FILENAME_PART) :
    (∀ st1, getFiles root t st pat m = .ok st1 →
      st1.cout = st.cout ++ t.reportedCodes.map failureLine) ∧
    ((m = EXTENSION → 2 ≤ pat.length) → ∃ st1, getFiles root t st pat m = .ok st1) ∧
    (∀ code, code ≠ ERROR_FILE_NOT_FOUND →
      getFiles root (.failed code) st pat m = .ok ⟨st.files, st.cout ++ [failureLine code]⟩) ∧
    getFiles root (.failed ERROR_FILE_NOT_FOUND) st pat m = .ok st ∧
    (∀ code : Nat, (toString code).toList <:+: failureLine code) := by
  refine ⟨?_, ?_, ?_, by simp [getFiles], ?_⟩
  · intro st1 h
    rw [getFiles_eq_collectPaths] at h
    cases hc : collectPaths root pat m t.regularFiles with
    | error e => rw [hc] at h; simp at h
    | ok paths =>
      rw [hc] at h
      simp only [Except.ok.injEq] at h
      rw [← h, diagnostics_eq_reportedCodes]
  · intro h
    obtain ⟨paths, hp⟩ := collectPaths_ok root pat m h t.regularFiles
    rw [getFiles_eq_collectPaths, hp]
    exact ⟨_, rfl⟩
  · intro code hcode
    simp [getFiles, hcode]
  · intro code
    exact ⟨_, _, rfl⟩

theorem diagnostics_report_failed_listings_witness :
    (State.mk ["C:\\c.txt".toList] [failureLine 5]).cout =
      (State.mk [] []).cout ++
        (Dir.listed [.dir "a".toList (.failed 5), .dir "b".toList (.failed 2),
          .file "c.txt".toList]).reportedCodes.map failureLine ∧
    (∃ st1, getFiles "C:".toList (.failed 5) ⟨[], []⟩ "*.txt".toList EXTENSION = .ok st1) ∧
    getFiles "C:".toList (.failed 5) ⟨[], []⟩ "*.txt".toList EXTENSION =
      .ok ⟨[], [] ++ [failureLine 5]⟩ :=
  ⟨(diagnostics_report_failed_listings "C:".toList
      (.listed [.dir "a".toList (.failed 5), .dir "b".toList (.failed 2),
        .file "c.txt".toList]) ⟨[], []⟩ "*.txt".toList EXTENSION).1
      ⟨["C:\\c.txt".toList], [failureLine 5]⟩ (by decide),
    (diagnostics_report_failed_listings "C:".toList (.failed 5) ⟨[], []⟩
      "*.txt".toList EXTENSION).2.1 (fun _ => by decide),
    (diagnostics_report_failed_listings "C:".toList (.failed 5) ⟨[], []⟩
      "*.txt".toList EXTENSION).2.2.1 5 (by decide)⟩

/-! ## The entries `.` and `..` -/

theorem getFiles_skip_pseudo (d : CppString) (before after : List Entry)
    (name : CppString) (sub : Dir) (st : State) (pat : CppString) (m : CMP_FILENAME_PART)
    (h : name = ".".toList ∨ name = "..".toList) :
    getFiles d (.listed (before ++ .dir name sub :: after)) st pat m =
      getFiles d (.listed (before ++ after)) st pat m := by
  rw [getFiles_listed, getFiles_listed, getFilesLoop_append, getFilesLoop_append]
  cases getFilesLoop d before st pat m with
  | error e => rfl
  | ok st1 => simp only [getFilesLoop, if_pos h]

theorem getFiles_dir_step (d : CppString) (before after : List Entry)
    (name : CppString) (sub : Dir) (st : State) (pat : CppString) (m : CMP_FILENAME_PART)
    (h : ¬ (name = ".".toList ∨ name = "..".toList)) :
    getFiles d (.listed (before ++ .dir name sub :: after)) st pat m =
      match getFiles d (.listed before) st pat m with
      | .error e => .error e
      | .ok st1 =>
        match getFiles (d ++ SEP ++ name) sub st1 pat m with
        | .error e => .error e
        | .ok st2 => getFiles d (.listed after) st2 pat m := by
  rw [getFiles_listed, getFiles_listed, getFilesLoop_append]
  cases getFilesLoop d before st pat m with
  | error e => rfl
  | ok st1 => simp only [getFiles_listed, getFilesLoop, if_neg h]

theorem getFiles_plug_congr (d1 d2 : Dir) (pat : CppString) (m : CMP_FILENAME_PART)
    (h : ∀ r st, getFiles r d1 st pat m = getFiles r d2 st pat m)
    (path : List (List Entry × CppString × List Entry)) :
    ∀ r st, getFiles r (plug path d1) st pat m = getFiles r (plug path d2) st pat m := by
  induction path with
  | nil => exact h
  | cons p path ih =>
    obtain ⟨before, name, after⟩ := p
    intro r st
    simp only [plug]
    by_cases hp : name = ".".toList ∨ name = "..".toList
    · rw [getFiles_skip_pseudo _ _ _ _ _ _ _ _ hp, getFiles_skip_pseudo _ _ _ _ _ _ _ _ hp]
    · rw [getFiles_dir_step _ _ _ _ _ _ _ _ hp, getFiles_dir_step _ _ _ _ _ _ _ _ hp]
      cases getFiles r (.listed before) st pat m with
      | error e => rfl
      | ok st1 => simp only [ih]

/-- C16: the directory entries `.` and `..` are skipped: for every tree,
pattern and mode, an entry `.` or `..` with the directory attribute, added at
any place of the listing of any directory of the tree, changes nothing of what
`getFiles` returns; a directory entry of any other name is walked, with its
joined path. -/
theorem pseudo_entries_are_skipped (path : List (List Entry × CppString × List Entry))
    (before after : List Entry) (name : CppString) (sub : Dir) (root : CppString)
    (st : State) (pat : CppString) (m : CMP_FILENAME_PART) :
    ((name = ".".toList ∨ name = "..".toList) →
      getFiles root (plug path (.listed (before ++ .dir name sub :: after))) st pat m =
        getFiles root (plug path (.listed (before ++ after))) st pat m) ∧
    (¬ (name = ".".toList ∨ name = "..".toList) →
      getFiles root (.listed (before ++ .dir name sub :: after)) st pat m =
        match getFiles root (.listed before) st pat m with
        | .error e => .error e
        | .ok st1 =>
          match getFiles (root ++ SEP ++ name) sub st1 pat m with
          | .error e => .error e
          | .ok st2 => getFiles root (.listed after) st2 pat m) := by
  constructor
  · intro h
    exact getFiles_plug_congr _ _ pat m
      (fun r st0 => getFiles_skip_pseudo r before after name sub st0 pat m h) path root st
  · intro h
    exact getFiles_dir_step root before after name sub st pat m h

theorem pseudo_entries_are_skipped_witness :
    ("..".toList = ".".toList ∨ "..".toList = "..".toList) ∧
    getFiles "C:".toList
        (plug [([], "sub".toList, [])]
          (.listed ([.file "b.txt".toList] ++ .dir "..".toList (.failed 5) :: [])))
        ⟨[], []⟩ "*.*".toList NOTHING =
      getFiles "C:".toList
        (plug [([], "sub".toList, [])] (.listed ([.file "b.txt".toList] ++ [])))
        ⟨[], []⟩ "*.*".toList NOTHING ∧
    ¬ ("sub".toList = ".".toList ∨ "sub".toList = "..".toList) ∧
    getFiles "C:".toList (.listed ([] ++ .dir "sub".toList (.failed 5) :: []))
        ⟨[], []⟩ "*.*".toList NOTHING =
      (match getFiles "C:".toList (.listed []) ⟨[], []⟩ "*.*".toList NOTHING with
        | .error e => .error e
        | .ok st1 =>
          match getFiles ("C:".toList ++ SEP ++ "sub".toList) (.failed 5) st1
              "*.*".toList NOTHING with
          | .error e => .error e
          | .ok st2 => getFiles "C:".toList (.listed []) st2 "*.*".toList NOTHING) :=
  ⟨by decide,
    (pseudo_entries_are_skipped [([], "sub".toList, [])] [.file "b.txt".toList] []
      "..".toList (.failed 5) "C:".toList ⟨[], []⟩ "*.*".toList NOTHING).1 (by decide),
    by decide,
    (pseudo_entries_are_skipped [] [] [] "sub".toList (.failed 5) "C:".toList ⟨[], []⟩
      "*.*".toList NOTHING).2 (by decide)⟩

/-! ## Every mode filters the match-all walk -/

theorem collectPaths_eq_filter (r pat : CppString) (m : CMP_FILENAME_PART)
    (h : m = EXTENSION → 2 ≤ pat.length) (cs : List (List CppString × CppString)) :
    collectPaths r pat m cs =
      .ok ((cs.filter (fun c => nameMatches c.2 pat m)).map (joinedPath r)) := by
  induction cs with
  | nil => rfl
  | cons c cs ih =>
    obtain ⟨b, hb⟩ := fileNameMatches_ok c.2 pat m h
    have hn : nameMatches c.2 pat m = b := by simp [nameMatches, hb]
    simp only [collectPaths, hb, ih, List.filter_cons, hn]
    cases b <;> simp

/-- C17: every mode is a filter of the match-all walk: for every tree and every
pattern of at least two characters, with the mode that the classifier returns,
`getFiles` returns the list that it returns under match-all with only the
files kept whose name satisfies the comparison of the mode, in the same order;
so a path is in the result if and only if it is the joined path of a regular
file of the tree whose name matches, and the result is a sublist of the result
for `*.*`. -/
theorem every_mode_filters_match_all (pattern : CppString) (h : 2 ≤ pattern.length)
    (root : CppString) (t : Dir) :
    ∃ m stAll st,
      getCmpFileNamePart pattern = .ok m ∧
      getFiles root t ⟨[], []⟩ "*.*".toList NOTHING = .ok stAll ∧
      getFiles root t ⟨[], []⟩ pattern m = .ok st ∧
      stAll.files = t.regularFiles.map (joinedPath root) ∧
      st.files =
        (t.regularFiles.filter (fun c => nameMatches c.2 pattern m)).map (joinedPath root) ∧
      (∀ p, p ∈ st.files ↔
        ∃ c ∈ t.regularFiles, nameMatches c.2 pattern m = true ∧ joinedPath root c = p) ∧
      st.files.Sublist stAll.files := by
  have hu : classifyByPriority pattern = EXTENSION → 2 ≤ pattern.length := fun _ => h
  refine ⟨classifyByPriority pattern,
    ⟨[] ++ t.regularFiles.map (joinedPath root), [] ++ t.diagnostics⟩,
    ⟨[] ++ (t.regularFiles.filter
      (fun c => nameMatches c.2 pattern (classifyByPriority pattern))).map (joinedPath root),
      [] ++ t.diagnostics⟩,
    getCmpFileNamePart_eq_classify pattern h,
    getFiles_nothing root t ⟨[], []⟩ _, ?_, rfl, rfl, ?_, ?_⟩
  · rw [getFiles_eq_collectPaths, collectPaths_eq_filter root pattern _ hu]
  · intro p
    simp only [List.nil_append, List.mem_map, List.mem_filter]
    constructor
    · rintro ⟨c, ⟨hc1, hc2⟩, hc3⟩
      exact ⟨c, hc1, hc2, hc3⟩
    · rintro ⟨c, hc1, hc2, hc3⟩
      exact ⟨c, ⟨hc1, hc2⟩, hc3⟩
  · simp only [List.nil_append]
    exact (List.filter_sublist _).map _

theorem every_mode_filters_match_all_witness :
    2 ≤ "*.txt".toList.length ∧
    ∃ m stAll st,
      getCmpFileNamePart "*.txt".toList = .ok m ∧
      getFiles "C:".toList (.listed [.file "a.txt".toList, .file "c.md".toList])
        ⟨[], []⟩ "*.*".toList NOTHING = .ok stAll ∧
      getFiles "C:".toList (.listed [.file "a.txt".toList, .file "c.md".toList])
        ⟨[], []⟩ "*.txt".toList m = .ok st ∧
      st.files.Sublist stAll.files :=
  ⟨by decide,
    match every_mode_filters_match_all "*.txt".toList (by decide) "C:".toList
      (.listed [.file "a.txt".toList, .file "c.md".toList]) with
    | ⟨m, stAll, st, h1, h2, h3, _, _, _, h7⟩ => ⟨m, stAll, st, h1, h2, h3, h7⟩⟩

/-! ## The four modes over a whole tree, and a name without `.` -/

theorem searchFiles_eq_filter (pat : CppString) (m : CMP_FILENAME_PART)
    (hc : getCmpFileNamePart pat = .ok m) (hu : m = EXTENSION → 2 ≤ pat.length)
    (root : CppString) (t : Dir) :
    searchFiles root pat t =
      .ok ⟨(t.regularFiles.filter (fun c => nameMatches c.2 pat m)).map (joinedPath root),
        t.diagnostics⟩ := by
  unfold searchFiles
  rw [hc]
  simp only
  rw [getFiles_eq_collectPaths, collectPaths_eq_filter root pat m hu]
  simp

theorem mem_filtered_joinedPaths (root : CppString) (t : Dir)
    (keep : List CppString × CppString → Bool) (c : List CppString × CppString)
    (hc : c ∈ t.regularFiles) :
    (keep c = true → joinedPath root c ∈ (t.regularFiles.filter keep).map (joinedPath root)) ∧
    (t.wellNamed = true →
      (joinedPath root c ∈ (t.regularFiles.filter keep).map (joinedPath root) ↔
        keep c = true)) := by
  have h1 : keep c = true →
      joinedPath root c ∈ (t.regularFiles.filter keep).map (joinedPath root) :=
    fun hk => List.mem_map_of_mem _ (List.mem_filter.mpr ⟨hc, hk⟩)
  refine ⟨h1, fun hw => ⟨?_, h1⟩⟩
  intro hm
  obtain ⟨c2, hc2, heq⟩ := List.mem_map.mp hm
  obtain ⟨hc2a, hc2b⟩ := List.mem_filter.mp hc2
  obtain ⟨_, hsep⟩ := regularFiles_nodup t hw
  have : c2 = c :=
    relativePath_inj c2 c (hsep c2 hc2a) (hsep c hc) (List.append_cancel_left heq)
  rw [← this]
  exact hc2b

theorem nameMatches_extension (ext f : CppString)
    (hlen : ("*.".toList ++ ext).length < SIZE_MODULUS)
    (hf : f.length < SIZE_MODULUS) (hdot : '.' ∈ f) :
    nameMatches f ("*.".toList ++ ext) EXTENSION = true ↔ afterFirstDot f = ext := by
  unfold nameMatches
  rw [fileNameMatches_extension ext f hlen hf hdot]
  simp

theorem fileNameMatches_dotless (ext f : CppString)
    (hlen : ("*.".toList ++ ext).length < SIZE_MODULUS)
    (hf : f.length < npos) (hdot : '.' ∉ f) :
    fileNameMatches f ("*.".toList ++ ext) EXTENSION = .ok (decide (f = ext)) := by
  have hp : "*.".toList ++ ext = '*' :: '.' :: ext := rfl
  rw [hp] at hlen ⊢
  simp only [fileNameMatches, substr_whole f hf hdot, substr_pattern_ext ext hlen]

theorem nameMatches_dotless (ext f : CppString)
    (hlen : ("*.".toList ++ ext).length < SIZE_MODULUS)
    (hf : f.length < npos) (hdot : '.' ∉ f) :
    nameMatches f ("*.".toList ++ ext) EXTENSION = true ↔ f = ext := by
  unfold nameMatches
  rw [fileNameMatches_dotless ext f hlen hf hdot]
  simp

theorem nameMatches_file_name (name f : CppString) (hf : f.length < SIZE_MODULUS) :
    nameMatches f (name ++ ".*".toList) FILE_NAME = true ↔
      beforeFirstDot f = beforeFirstDot name := by
  have hdot : '.' ∈ name ++ ".*".toList := by simp
  have h := fileNameMatches_file_name (name ++ ".*".toList) f hf hdot
  have hb : beforeFirstDot (name ++ ".*".toList) = beforeFirstDot name :=
    beforeFirstDot_append_dot name ['*']
  rw [hb] at h
  unfold nameMatches
  rw [h]
  simp

theorem nameMatches_everything (pat f : CppString) :
    nameMatches f pat EVERYTHING = true ↔ f = pat := by
  simp [nameMatches, fileNameMatches]

theorem classify_extension (ext : CppString) (hext : ext.head? ≠ some '*') :
    getCmpFileNamePart ("*.".toList ++ ext) = .ok EXTENSION := by
  have hp : "*.".toList ++ ext = '*' :: '.' :: ext := rfl
  rw [hp, getCmpFileNamePart_cons_cons]
  simp [hext]

theorem classify_file_name (name : CppString)
    (hstar : ¬ ("*.".toList <+: name ++ ".*".toList)) :
    getCmpFileNamePart (name ++ ".*".toList) = .ok FILE_NAME := by
  rw [getCmpFileNamePart_eq_classify (name ++ ".*".toList) (by simp)]
  unfold classifyByPriority
  rw [if_neg hstar, if_pos (List.suffix_append _ _)]

theorem classify_everything (pattern : CppString) (hlen : 2 ≤ pattern.length)
    (hpre : ¬ ("*.".toList <+: pattern)) (hsuf : ¬ (".*".toList <:+ pattern)) :
    getCmpFileNamePart pattern = .ok EVERYTHING := by
  rw [getCmpFileNamePart_eq_classify pattern hlen]
  unfold classifyByPriority
  rw [if_neg hpre, if_neg hsuf]

/-- The search by `pat`, of mode `m`, returns, and what it returns is the list
of the joined paths of the regular files of the tree whose name satisfies the
comparison of the mode, each file of the tree being judged on its own. -/
theorem searchFiles_collects (pat : CppString) (m : CMP_FILENAME_PART)
    (hc : getCmpFileNamePart pat = .ok m) (hu : m = EXTENSION → 2 ≤ pat.length)
    (root : CppString) (t : Dir) :
    ∃ st, searchFiles root pat t = .ok st ∧
      st.files =
        (t.regularFiles.filter (fun c => nameMatches c.2 pat m)).map (joinedPath root) ∧
      ∀ c ∈ t.regularFiles,
        (nameMatches c.2 pat m = true → joinedPath root c ∈ st.files) ∧
        (t.wellNamed = true →
          (joinedPath root c ∈ st.files ↔ nameMatches c.2 pat m = true)) := by
  refine ⟨_, searchFiles_eq_filter pat m hc hu root t, rfl, ?_⟩
  intro c hcm
  exact mem_filtered_joinedPaths root t (fun c => nameMatches c.2 pat m) c hcm

/-- C2: for a pattern `*.` followed by `ext`, where `ext` does not begin with
`*`, and every tree: the classifier returns match-by-extension, the search
returns, and its result is the list of the joined paths of the regular files
that the comparison of the mode keeps, in the order of the walk; for every
regular file of the tree whose name has a `.`, the comparison keeps the file if
and only if the part of the name after its first `.` is `ext`: then its joined
path is in the result, and when the names of the tree are distinct and without
separator its joined path is in the result only then (pattern and name being
shorter than `2 ^ 64`). -/
theorem extension_pattern_collects_iff (ext : CppString)
    (hext : ext.head? ≠ some '*')
    (hlen : ("*.".toList ++ ext).length < SIZE_MODULUS)
    (root : CppString) (t : Dir) :
    getCmpFileNamePart ("*.".toList ++ ext) = .ok EXTENSION ∧
    (∃ st, searchFiles root ("*.".toList ++ ext) t = .ok st ∧
      st.files =
        (t.regularFiles.filter
          (fun c => nameMatches c.2 ("*.".toList ++ ext) EXTENSION)).map (joinedPath root) ∧
      ∀ c ∈ t.regularFiles, '.' ∈ c.2 → c.2.length < SIZE_MODULUS →
        (nameMatches c.2 ("*.".toList ++ ext) EXTENSION = true ↔ afterFirstDot c.2 = ext) ∧
        (afterFirstDot c.2 = ext → joinedPath root c ∈ st.files) ∧
        (t.wellNamed = true →
          (joinedPath root c ∈ st.files ↔ afterFirstDot c.2 = ext))) ∧
    (∀ fileName : CppString, '.' ∈ fileName → fileName.length < SIZE_MODULUS →
      CollectsIff ("*.".toList ++ ext) EXTENSION fileName
        (afterFirstDot fileName = ext)) := by
  have hcl := classify_extension ext hext
  refine ⟨hcl, ?_, ?_⟩
  · obtain ⟨st, h1, h2, h3⟩ :=
      searchFiles_collects ("*.".toList ++ ext) EXTENSION hcl (fun _ => by simp) root t
    refine ⟨st, h1, h2, ?_⟩
    intro c hc hdot hf
    have hiff := nameMatches_extension ext c.2 hlen hf hdot
    obtain ⟨h4, h5⟩ := h3 c hc
    exact ⟨hiff, fun h => h4 (hiff.mpr h), fun hw => (h5 hw).trans hiff⟩
  · intro f hdot hf
    exact collectsIff_of_fileNameMatches _ _ _ _
      (fileNameMatches_extension ext f hlen hf hdot)

theorem extension_pattern_collects_iff_witness :
    "tar.gz".toList.head? ≠ some '*' ∧
    ("*.".toList ++ "tar.gz".toList).length < SIZE_MODULUS ∧
    ((["sub".toList], "a.tar.gz".toList) ∈
      (Dir.listed [.file "x.md".toList,
        .dir "sub".toList (.listed [.file "a.tar.gz".toList])]).regularFiles) ∧
    '.' ∈ "a.tar.gz".toList ∧ "a.tar.gz".toList.length < SIZE_MODULUS ∧
    afterFirstDot "a.tar.gz".toList = "tar.gz".toList ∧
    ∃ st, searchFiles "C:".toList ("*.".toList ++ "tar.gz".toList)
        (.listed [.file "x.md".toList,
          .dir "sub".toList (.listed [.file "a.tar.gz".toList])]) = .ok st ∧
      joinedPath "C:".toList (["sub".toList], "a.tar.gz".toList) ∈ st.files :=
  ⟨by decide, by decide, by decide, by decide, by decide, by decide,
    match (extension_pattern_collects_iff "tar.gz".toList (by decide) (by decide)
      "C:".toList (.listed [.file "x.md".toList,
        .dir "sub".toList (.listed [.file "a.tar.gz".toList])])).2.1 with
    | ⟨st, h1, _, h3⟩ =>
      ⟨st, h1, (h3 (["sub".toList], "a.tar.gz".toList) (by decide) (by decide)
        (by decide)).2.1 (by decide)⟩⟩

/-- C4 (amended): for a pattern `name` followed by `.*` that does not start
with `*.`, and every tree: the classifier returns match-by-base-name, the
search returns, and its result is the list of the joined paths of the regular
files that the comparison of the mode keeps, in the order of the walk; for
every regular file of the tree, the comparison keeps the file if and only if
the part of the file name before its first `.` (the whole file name when it
has none) equals the part of `name` before its first `.` (`name` itself when
it has none): then its joined path is in the result, and when the names of the
tree are distinct and without separator its joined path is in the result only
then (file name shorter than `2 ^ 64`). -/
theorem base_name_pattern_collects_iff (name : CppString)
    (hstar : ¬ ("*.".toList <+: name ++ ".*".toList))
    (root : CppString) (t : Dir) :
    getCmpFileNamePart (name ++ ".*".toList) = .ok FILE_NAME ∧
    (∃ st, searchFiles root (name ++ ".*".toList) t = .ok st ∧
      st.files =
        (t.regularFiles.filter
          (fun c => nameMatches c.2 (name ++ ".*".toList) FILE_NAME)).map (joinedPath root) ∧
      ∀ c ∈ t.regularFiles, c.2.length < SIZE_MODULUS →
        (nameMatches c.2 (name ++ ".*".toList) FILE_NAME = true ↔
          beforeFirstDot c.2 = beforeFirstDot name) ∧
        (beforeFirstDot c.2 = beforeFirstDot name → joinedPath root c ∈ st.files) ∧
        (t.wellNamed = true →
          (joinedPath root c ∈ st.files ↔ beforeFirstDot c.2 = beforeFirstDot name))) ∧
    (∀ fileName : CppString, fileName.length < SIZE_MODULUS →
      CollectsIff (name ++ ".*".toList) FILE_NAME fileName
        (beforeFirstDot fileName = beforeFirstDot name)) := by
  have hcl := classify_file_name name hstar
  refine ⟨hcl, ?_, ?_⟩
  · obtain ⟨st, h1, h2, h3⟩ :=
      searchFiles_collects (name ++ ".*".toList) FILE_NAME hcl (fun h => by simp at h) root t
    refine ⟨st, h1, h2, ?_⟩
    intro c hc hf
    have hiff := nameMatches_file_name name c.2 hf
    obtain ⟨h4, h5⟩ := h3 c hc
    exact ⟨hiff, fun h => h4 (hiff.mpr h), fun hw => (h5 hw).trans hiff⟩
  · intro f hf
    have hdot : '.' ∈ name ++ ".*".toList := by simp
    have h := fileNameMatches_file_name (name ++ ".*".toList) f hf hdot
    have hb : beforeFirstDot (name ++ ".*".toList) = beforeFirstDot name :=
      beforeFirstDot_append_dot name ['*']
    rw [hb] at h
    exact collectsIff_of_fileNameMatches _ _ _ _ h

theorem base_name_pattern_collects_iff_witness :
    ¬ ("*.".toList <+: "a.b".toList ++ ".*".toList) ∧
    ((["sub".toList], "a.txt".toList) ∈
      (Dir.listed [.file "x.md".toList,
        .dir "sub".toList (.listed [.file "a.txt".toList])]).regularFiles) ∧
    "a.txt".toList.length < SIZE_MODULUS ∧
    beforeFirstDot "a.txt".toList = beforeFirstDot "a.b".toList ∧
    ∃ st, searchFiles "C:".toList ("a.b".toList ++ ".*".toList)
        (.listed [.file "x.md".toList,
          .dir "sub".toList (.listed [.file "a.txt".toList])]) = .ok st ∧
      joinedPath "C:".toList (["sub".toList], "a.txt".toList) ∈ st.files :=
  ⟨by decide, by decide, by decide, by decide,
    match (base_name_pattern_collects_iff "a.b".toList (by decide)
      "C:".toList (.listed [.file "x.md".toList,
        .dir "sub".toList (.listed [.file "a.txt".toList])])).2.1 with
    | ⟨st, h1, _, h3⟩ =>
      ⟨st, h1, (h3 (["sub".toList], "a.txt".toList) (by decide) (by decide)).2.1
        (by decide)⟩⟩

/-- C5: for a pattern of at least two characters that neither starts with `*.`
nor ends with `.*`, and every tree: the classifier returns match-full-name,
the search returns, and its result is the list of the joined paths of the
regular files of the tree whose name equals the pattern, in the order of the
walk; the joined path of a regular file of the tree whose name equals the
pattern is in the result, and when the names of the tree are distinct and
without separator the joined path of a regular file of the tree is in the
result only if its name equals the pattern. -/
theorem exact_pattern_collects_iff (pattern : CppString) (hlen : 2 ≤ pattern.length)
    (hpre : ¬ ("*.".toList <+: pattern)) (hsuf : ¬ (".*".toList <:+ pattern))
    (root : CppString) (t : Dir) :
    getCmpFileNamePart pattern = .ok EVERYTHING ∧
    (∃ st, searchFiles root pattern t = .ok st ∧
      st.files =
        (t.regularFiles.filter (fun c => decide (c.2 = pattern))).map (joinedPath root) ∧
      ∀ c ∈ t.regularFiles,
        (c.2 = pattern → joinedPath root c ∈ st.files) ∧
        (t.wellNamed = true → (joinedPath root c ∈ st.files ↔ c.2 = pattern))) ∧
    (∀ fileName : CppString,
      CollectsIff pattern EVERYTHING fileName (fileName = pattern)) := by
  have hcl := classify_everything pattern hlen hpre hsuf
  refine ⟨hcl, ?_, ?_⟩
  · obtain ⟨st, h1, h2, h3⟩ :=
      searchFiles_collects pattern EVERYTHING hcl (fun h => by simp at h) root t
    refine ⟨st, h1, h2, ?_⟩
    intro c hc
    have hiff := nameMatches_everything pattern c.2
    obtain ⟨h4, h5⟩ := h3 c hc
    exact ⟨fun h => h4 (hiff.mpr h), fun hw => (h5 hw).trans hiff⟩
  · intro f
    exact collectsIff_of_fileNameMatches _ _ _ _ (by simp [fileNameMatches])

theorem exact_pattern_collects_iff_witness :
    2 ≤ "a.txt".toList.length ∧ ¬ ("*.".toList <+: "a.txt".toList) ∧
    ¬ (".*".toList <:+ "a.txt".toList) ∧
    ((["sub".toList], "a.txt".toList) ∈
      (Dir.listed [.file "x.md".toList,
        .dir "sub".toList (.listed [.file "a.txt".toList])]).regularFiles) ∧
    ∃ st, searchFiles "C:".toList "a.txt".toList
        (.listed [.file "x.md".toList,
          .dir "sub".toList (.listed [.file "a.txt".toList])]) = .ok st ∧
      joinedPath "C:".toList (["sub".toList], "a.txt".toList) ∈ st.files :=
  ⟨by decide, by decide, by decide, by decide,
    match (exact_pattern_collects_iff "a.txt".toList (by decide) (by decide) (by decide)
      "C:".toList (.listed [.file "x.md".toList,
        .dir "sub".toList (.listed [.file "a.txt".toList])])).2.1 with
    | ⟨st, h1, _, h3⟩ =>
      ⟨st, h1, (h3 (["sub".toList], "a.txt".toList) (by decide)).1 rfl⟩⟩

/-- C18: in match-by-extension mode a file name without `.` is compared as a
whole: `find` returns `npos`, `npos + 1` wraps to `0` and `size - npos` wraps to
`size + 1`, so `substr` gives the whole name; hence for a pattern `*.` followed
by `ext`, classified as match-by-extension, and every tree, the search returns,
its result is the list of the joined paths of the regular files that the
comparison keeps, and for every regular file of the tree whose name has no `.`
the comparison keeps the file if and only if the name equals `ext`: then its
joined path is in the result, and when the names of the tree are distinct and
without separator its joined path is in the result only then (pattern shorter
than `2 ^ 64`, name shorter than `npos`). -/
theorem dotless_name_compared_as_whole (ext : CppString)
    (hext : ext.head? ≠ some '*')
    (hlen : ("*.".toList ++ ext).length < SIZE_MODULUS)
    (root : CppString) (t : Dir) :
    getCmpFileNamePart ("*.".toList ++ ext) = .ok EXTENSION ∧
    sizeAdd npos 1 = 0 ∧
    (∀ fileName : CppString, '.' ∉ fileName → fileName.length < npos →
      find fileName '.' = npos ∧
      sizeSub fileName.length npos = fileName.length + 1 ∧
      substr fileName (sizeAdd (find fileName '.') 1)
        (sizeSub fileName.length (find fileName '.')) = .ok fileName) ∧
    (∃ st, searchFiles root ("*.".toList ++ ext) t = .ok st ∧
      st.files =
        (t.regularFiles.filter
          (fun c => nameMatches c.2 ("*.".toList ++ ext) EXTENSION)).map (joinedPath root) ∧
      ∀ c ∈ t.regularFiles, '.' ∉ c.2 → c.2.length < npos →
        (nameMatches c.2 ("*.".toList ++ ext) EXTENSION = true ↔ c.2 = ext) ∧
        (c.2 = ext → joinedPath root c ∈ st.files) ∧
        (t.wellNamed = true → (joinedPath root c ∈ st.files ↔ c.2 = ext))) ∧
    (∀ fileName : CppString, '.' ∉ fileName → fileName.length < npos →
      CollectsIff ("*.".toList ++ ext) EXTENSION fileName (fileName = ext)) := by
  have hcl := classify_extension ext hext
  have hpos : SIZE_MODULUS = npos + 1 := by unfold npos SIZE_MODULUS; norm_num
  refine ⟨hcl, ?_, ?_, ?_, ?_⟩
  · unfold sizeAdd; rw [hpos]; simp
  · intro f hdot hf
    refine ⟨find_of_not_mem f '.' hdot, ?_, substr_whole f hf hdot⟩
    unfold sizeSub
    have : f.length + SIZE_MODULUS - npos = f.length + 1 := by omega
    rw [this]
    exact Nat.mod_eq_of_lt (by omega)
  · obtain ⟨st, h1, h2, h3⟩ :=
      searchFiles_collects ("*.".toList ++ ext) EXTENSION hcl (fun _ => by simp) root t
    refine ⟨st, h1, h2, ?_⟩
    intro c hc hdot hf
    have hiff := nameMatches_dotless ext c.2 hlen hf hdot
    obtain ⟨h4, h5⟩ := h3 c hc
    exact ⟨hiff, fun h => h4 (hiff.mpr h), fun hw => (h5 hw).trans hiff⟩
  · intro f hdot hf
    exact collectsIff_of_fileNameMatches _ _ _ _ (fileNameMatches_dotless ext f hlen hf hdot)

theorem dotless_name_compared_as_whole_witness :
    "txt".toList.head? ≠ some '*' ∧
    ("*.".toList ++ "txt".toList).length < SIZE_MODULUS ∧
    ((["sub".toList], "txt".toList) ∈
      (Dir.listed [.file "x.md".toList,
        .dir "sub".toList (.listed [.file "txt".toList])]).regularFiles) ∧
    '.' ∉ "txt".toList ∧ "txt".toList.length < npos ∧
    find "txt".toList '.' = npos ∧
    ∃ st, searchFiles "C:".toList ("*.".toList ++ "txt".toList)
        (.listed [.file "x.md".toList,
          .dir "sub".toList (.listed [.file "txt".toList])]) = .ok st ∧
      joinedPath "C:".toList (["sub".toList], "txt".toList) ∈ st.files :=
  ⟨by decide, by decide, by decide, by decide, by decide,
    ((dotless_name_compared_as_whole "txt".toList (by decide) (by decide)
      "C:".toList (.listed [])).2.2.1 "txt".toList (by decide) (by decide)).1,
    match (dotless_name_compared_as_whole "txt".toList (by decide) (by decide)
      "C:".toList (.listed [.file "x.md".toList,
        .dir "sub".toList (.listed [.file "txt".toList])])).2.2.2.1 with
    | ⟨st, h1, _, h3⟩ =>
      ⟨st, h1, (h3 (["sub".toList], "txt".toList) (by decide) (by decide)
        (by decide)).2.1 rfl⟩⟩

end FileSearch
